import Mathlib

/-!
Shallow embedding of the static abstract interpreter of the jpamb debloater
(src/debloater/static/abstract_interpreter.py) and its two abstract domains
(src/debloater/static/abstractions/interval_abstraction.py and
sign_abstraction.py), together with theorems settling the specification
claims about them.

The interval domain stores Python numbers (ints and floats, including the
infinities produced by Interval.top and, in corner cases, NaN).  We model
that number universe by the type PF below: an extended rational with an
explicit NaN, whose comparisons, arithmetic and min/max mirror Python float
semantics (all comparisons with NaN are false, inf - inf is NaN,
0 * inf is NaN, Python min/max keep the first argument unless a strictly
smaller/larger one is found).  True division between finite values is
modelled as exact rational division.
-/

namespace Debloater

/-- Python number (int / float) universe used by the interval domain:
extended rationals with NaN. -/
inductive PF where
  | nan : PF
  | ninf : PF
  | pinf : PF
  | fin : ℚ → PF
deriving DecidableEq, Repr

/-- Python strict comparison a < b (false whenever NaN is involved). -/
def PF.lt : PF → PF → Bool
  | .nan, _ => false
  | _, .nan => false
  | .ninf, .ninf => false
  | .ninf, _ => true
  | _, .ninf => false
  | .pinf, _ => false
  | _, .pinf => true
  | .fin a, .fin b => decide (a < b)

/-- Python comparison a <= b (false whenever NaN is involved). -/
def PF.le : PF → PF → Bool
  | .nan, _ => false
  | _, .nan => false
  | .ninf, _ => true
  | _, .ninf => false
  | _, .pinf => true
  | .pinf, _ => false
  | .fin a, .fin b => decide (a ≤ b)

/-- Python equality a == b (false whenever NaN is involved). -/
def PF.peq : PF → PF → Bool
  | .fin a, .fin b => decide (a = b)
  | .ninf, .ninf => true
  | .pinf, .pinf => true
  | _, _ => false

/-- Python unary negation. -/
def PF.neg : PF → PF
  | .nan => .nan
  | .ninf => .pinf
  | .pinf => .ninf
  | .fin a => .fin (-a)

/-- Python addition (inf + -inf is NaN). -/
def PF.add : PF → PF → PF
  | .nan, _ => .nan
  | _, .nan => .nan
  | .ninf, .pinf => .nan
  | .pinf, .ninf => .nan
  | .ninf, _ => .ninf
  | _, .ninf => .ninf
  | .pinf, _ => .pinf
  | _, .pinf => .pinf
  | .fin a, .fin b => .fin (a + b)

/-- Python subtraction, a - b = a + (-b). -/
def PF.sub (a b : PF) : PF := a.add b.neg

/-- Python multiplication (0 * inf is NaN). -/
def PF.mul : PF → PF → PF
  | .nan, _ => .nan
  | _, .nan => .nan
  | .fin a, .fin b => .fin (a * b)
  | .fin a, .pinf => if 0 < a then .pinf else if a < 0 then .ninf else .nan
  | .fin a, .ninf => if 0 < a then .ninf else if a < 0 then .pinf else .nan
  | .pinf, .fin b => if 0 < b then .pinf else if b < 0 then .ninf else .nan
  | .ninf, .fin b => if 0 < b then .ninf else if b < 0 then .pinf else .nan
  | .pinf, .pinf => .pinf
  | .pinf, .ninf => .ninf
  | .ninf, .pinf => .ninf
  | .ninf, .ninf => .pinf

/-- Python true division.  Finite / finite is modelled as exact rational
division.  Division by an exact zero raises ZeroDivisionError in Python; the
interval code only divides after excluding divisor intervals that straddle
zero, so that case is unreachable there and we return NaN for totality.
Likewise inf / inf is NaN. -/
def PF.div : PF → PF → PF
  | .nan, _ => .nan
  | _, .nan => .nan
  | .fin a, .fin b => if b = 0 then .nan else .fin (a / b)
  | .fin _, .pinf => .fin 0
  | .fin _, .ninf => .fin 0
  | .pinf, .fin b => if b < 0 then .ninf else if 0 < b then .pinf else .nan
  | .ninf, .fin b => if b < 0 then .pinf else if 0 < b then .ninf else .nan
  | .pinf, _ => .nan
  | .ninf, _ => .nan

/-- Python two-argument min: returns b only if b < a (so the first argument
wins on ties and against NaN in second position). -/
def PF.pymin (a b : PF) : PF := if PF.lt b a then b else a

/-- Python two-argument max: returns b only if a < b. -/
def PF.pymax (a b : PF) : PF := if PF.lt a b then b else a

/-- Python min over a nonempty list (fold keeping the strictly smaller
element).  The empty case is unreachable in the modelled code. -/
def PF.pyminList : List PF → PF
  | [] => .nan
  | x :: xs => xs.foldl PF.pymin x

/-- Python max over a nonempty list. -/
def PF.pymaxList : List PF → PF
  | [] => .nan
  | x :: xs => xs.foldl PF.pymax x

/-- Comparison operator strings used by the interpreter and both domains
(the six values of the condition field of if / ifz opcodes). -/
inductive CmpOp where
  | eq | ne | lt | le | gt | ge
deriving DecidableEq, Repr

/-- Translation of the helper holds(rel, opr) of sign_abstraction.py: does an
arithmetic relation (-1 strictly less, 0 equal, 1 strictly greater) make the
comparison operator true. -/
def holds (rel : Int) (opr : CmpOp) : Bool :=
  match opr with
  | .lt => rel == -1
  | .le => rel == -1 || rel == 0
  | .gt => rel == 1
  | .ge => rel == 1 || rel == 0
  | .eq => rel == 0
  | .ne => rel == -1 || rel == 1

/-- Interval abstract domain of interval_abstraction.py: a pair of bounds,
with the sentinel bottom lo > hi. -/
structure Interval where
  lo : PF
  hi : PF
deriving DecidableEq, Repr

namespace Interval

/-- Interval.empty(): the sentinel bottom element (1, 0). -/
def empty : Interval := ⟨.fin 1, .fin 0⟩

/-- Interval.top(): the unbounded interval (-inf, inf). -/
def top : Interval := ⟨.ninf, .pinf⟩

/-- Interval.is_bottom(): lo > hi. -/
def is_bottom (s : Interval) : Bool := PF.lt s.hi s.lo

/-- Interval.of(lo, hi): empty if lo > hi, else the interval. -/
def of (lo hi : PF) : Interval := if PF.lt hi lo then empty else ⟨lo, hi⟩

/-- Interval.abstract(items): empty for the empty list, else the hull
[min items, max items].  The pushed constants are integers; a rational
universe keeps the embedding uniform with division results. -/
def abstract (items : List ℚ) : Interval :=
  match items with
  | [] => empty
  | x :: xs => ⟨PF.pyminList ((x :: xs).map PF.fin), PF.pymaxList ((x :: xs).map PF.fin)⟩

/-- Interval.__contains__: not bottom and lo <= x <= hi. -/
def mem (s : Interval) (x : ℚ) : Bool :=
  !s.is_bottom && PF.le s.lo (.fin x) && PF.le (.fin x) s.hi

/-- Membership of a concrete integer, the concretisation used by the
soundness claims. -/
def memZ (s : Interval) (x : ℤ) : Bool := s.mem (x : ℚ)

/-- Interval.concrete_value(): the unique member if lo == hi (Python
equality, hence none for NaN bounds), else none. -/
def concrete_value (s : Interval) : Option PF :=
  if s.is_bottom then none
  else if PF.peq s.lo s.hi then some s.lo
  else none

/-- Interval.add. -/
def add (s other : Interval) : Interval :=
  if s.is_bottom || other.is_bottom then empty
  else ⟨PF.add s.lo other.lo, PF.add s.hi other.hi⟩

/-- Interval.__neg__. -/
def negate (s : Interval) : Interval :=
  if s.is_bottom then empty
  else ⟨PF.neg s.hi, PF.neg s.lo⟩

/-- Interval.sub. -/
def sub (s other : Interval) : Interval :=
  if s.is_bottom || other.is_bottom then empty
  else ⟨PF.sub s.lo other.hi, PF.sub s.hi other.lo⟩

/-- Interval.mul: the hull of the four bound products (Python min/max over
the product list). -/
def mul (s other : Interval) : Interval :=
  if s.is_bottom || other.is_bottom then empty
  else
    let products := [PF.mul s.lo other.lo, PF.mul s.lo other.hi,
                     PF.mul s.hi other.lo, PF.mul s.hi other.hi]
    ⟨PF.pyminList products, PF.pymaxList products⟩

/-- Interval.div: bottom for the exact-zero divisor [0,0], top when the
divisor straddles zero, else the hull of the four bound quotients. -/
def div (s other : Interval) : Interval :=
  if s.is_bottom || other.is_bottom then empty
  else if PF.peq other.lo (.fin 0) && PF.peq other.hi (.fin 0) then empty
  else if PF.le other.lo (.fin 0) && PF.le (.fin 0) other.hi then top
  else
    let candidates := [PF.div s.lo other.lo, PF.div s.lo other.hi,
                       PF.div s.hi other.lo, PF.div s.hi other.hi]
    ⟨PF.pyminList candidates, PF.pymaxList candidates⟩

/-- Set of possible arithmetic relations between two intervals, the body
shared verbatim by compare_floating and compare in the source (we return the
canonical ordered list [-1, 0, 1] for the Python set). -/
def rels (s other : Interval) : List Int :=
  (if PF.lt s.lo other.hi then [-1] else []) ++
  (if PF.le (PF.pymax s.lo other.lo) (PF.pymin s.hi other.hi) then [0] else []) ++
  (if PF.lt other.lo s.hi then [1] else [])

/-- Interval.compare_floating. -/
def compare_floating (s other : Interval) : List Int :=
  if s.is_bottom || other.is_bottom then [] else rels s other

/-- Interval.compare: [true?, false?] according to which relations are
possible. -/
def compare (s other : Interval) (op : CmpOp) : List Bool :=
  if s.is_bottom || other.is_bottom then []
  else
    let rs := rels s other
    (if rs.any (fun r => holds r op) then [true] else []) ++
    (if rs.any (fun r => !holds r op) then [false] else [])

/-- The inter convenience helper inside Interval.constrain. -/
def inter2 (lo1 hi1 lo2 hi2 : PF) : Interval :=
  let lo := PF.pymax lo1 lo2
  let hi := PF.pymin hi1 hi2
  if PF.lt hi lo then empty else ⟨lo, hi⟩

/-- Interval.constrain(prev, other, op): the branch refinement pair
(refined for op true, refined for op false). -/
def constrain (prev other : Interval) (op : CmpOp) : Interval × Interval :=
  if prev.is_bottom || other.is_bottom then (empty, empty)
  else
    let a := prev.lo
    let b := prev.hi
    let c := other.lo
    let d := other.hi
    match op with
    | .lt =>
      if PF.le d a then (empty, prev)
      else
        let t_hi := PF.pymin b (PF.sub d (.fin 1))
        (of a t_hi, if PF.lt t_hi b then of (PF.add t_hi (.fin 1)) b else empty)
    | .le =>
      if PF.lt d a then (empty, prev)
      else
        let t_hi := PF.pymin b d
        (of a t_hi, if PF.lt t_hi b then of (PF.add t_hi (.fin 1)) b else empty)
    | .gt =>
      if PF.le b c then (empty, prev)
      else
        let t_lo := PF.pymax a (PF.add c (.fin 1))
        (of t_lo b, if PF.lt a t_lo then of a (PF.sub t_lo (.fin 1)) else empty)
    | .ge =>
      if PF.lt b c then (empty, prev)
      else
        let t_lo := PF.pymax a c
        (of t_lo b, if PF.lt a t_lo then of a (PF.sub t_lo (.fin 1)) else empty)
    | .eq =>
      let i := inter2 a b c d
      if i.is_bottom then (empty, prev)
      else if PF.le c a && PF.le b d then (prev, empty)
      else (i, prev)
    | .ne =>
      if (inter2 a b c d).is_bottom then (prev, empty)
      else if PF.peq a b && PF.le c a && PF.le a d then (empty, prev)
      else (prev, prev)

/-- Interval.__le__: the lattice order. -/
def le (s other : Interval) : Bool :=
  if s.is_bottom then true
  else if other.is_bottom then false
  else PF.le other.lo s.lo && PF.le s.hi other.hi

/-- Interval.__or__: the lattice join (interval hull). -/
def or (s other : Interval) : Interval :=
  if s.is_bottom then other
  else if other.is_bottom then s
  else ⟨PF.pymin s.lo other.lo, PF.pymax s.hi other.hi⟩

/-- Interval.__and__: the lattice meet. -/
def and (s other : Interval) : Interval :=
  if s.is_bottom || other.is_bottom then empty
  else
    let lo := PF.pymax s.lo other.lo
    let hi := PF.pymin s.hi other.hi
    if PF.lt hi lo then empty else ⟨lo, hi⟩

/-- Intervals whose bounds are not NaN: the extended-real elements of the
data model.  NaN bounds only arise as float-arithmetic artifacts (for
example 0 * inf inside mul). -/
def NanFree (s : Interval) : Prop := s.lo ≠ PF.nan ∧ s.hi ≠ PF.nan

instance (s : Interval) : Decidable s.NanFree := by
  unfold Interval.NanFree
  infer_instance

end Interval

/-- The three signs of sign_abstraction.py ("-", "0", "+"). -/
inductive Sign where
  | neg | zero | pos
deriving DecidableEq, Repr

/-- Sign of a concrete integer (the classification used in abstract). -/
def signOf (x : ℤ) : Sign :=
  if x = 0 then .zero else if 0 < x then .pos else .neg

/-- SignSet abstract domain: a finite set of possible signs. -/
structure SignSet where
  signs : Finset Sign
deriving DecidableEq

namespace SignSet

/-- SignSet.top(): all three signs. -/
def top : SignSet := ⟨{Sign.pos, Sign.neg, Sign.zero}⟩

/-- SignSet.empty(): the bottom element. -/
def empty : SignSet := ⟨∅⟩

/-- SignSet.abstract(items): the set of signs occurring in the list (the
early exit of the source does not change the resulting set). -/
def abstract (items : List ℤ) : SignSet :=
  ⟨items.foldl (fun s x => insert (signOf x) s) ∅⟩

/-- SignSet.concretize(x): true iff the element allows x (this is also
SignSet.__contains__). -/
def concretize (s : SignSet) (x : ℤ) : Bool :=
  (decide (Sign.zero ∈ s.signs) && decide (x = 0)) ||
  (decide (Sign.pos ∈ s.signs) && decide (0 < x)) ||
  (decide (Sign.neg ∈ s.signs) && decide (x < 0))

/-- SignSet.__le__: subset order. -/
def le (s other : SignSet) : Bool := decide (s.signs ⊆ other.signs)

/-- SignSet.__and__: meet = intersection. -/
def and (s other : SignSet) : SignSet := ⟨s.signs ∩ other.signs⟩

/-- SignSet.__or__: join = union. -/
def or (s other : SignSet) : SignSet := ⟨s.signs ∪ other.signs⟩

/-- Mapping of SignSet.__neg__ on a single sign. -/
def negateSign : Sign → Sign
  | .pos => .neg
  | .neg => .pos
  | .zero => .zero

/-- SignSet.__neg__. -/
def negate (s : SignSet) : SignSet := ⟨s.signs.image negateSign⟩

/-- SignSet._lift_bin: union of the table entries over all sign pairs (the
early exit at top does not change the resulting set). -/
def lift_bin (a b : SignSet) (table : Sign → Sign → Finset Sign) : SignSet :=
  ⟨a.signs.biUnion (fun sa => b.signs.biUnion (fun sb => table sa sb))⟩

/-- The add_table of SignSet.add. -/
def addTable : Sign → Sign → Finset Sign
  | .pos, .pos => {.pos}
  | .pos, .zero => {.pos}
  | .pos, .neg => {.neg, .zero, .pos}
  | .zero, .pos => {.pos}
  | .zero, .zero => {.zero}
  | .zero, .neg => {.neg}
  | .neg, .pos => {.neg, .zero, .pos}
  | .neg, .zero => {.neg}
  | .neg, .neg => {.neg}

/-- SignSet.add. -/
def add (s other : SignSet) : SignSet := lift_bin s other addTable

/-- SignSet.sub = add of the negation. -/
def sub (s other : SignSet) : SignSet := s.add other.negate

/-- The mul_table of SignSet.mul. -/
def mulTable : Sign → Sign → Finset Sign
  | .pos, .pos => {.pos}
  | .pos, .zero => {.zero}
  | .pos, .neg => {.neg}
  | .zero, .pos => {.zero}
  | .zero, .zero => {.zero}
  | .zero, .neg => {.zero}
  | .neg, .pos => {.neg}
  | .neg, .zero => {.zero}
  | .neg, .neg => {.pos}

/-- SignSet.mul. -/
def mul (s other : SignSet) : SignSet := lift_bin s other mulTable

/-- SignSet.div: division by the zero sign contributes nothing, otherwise
the quotient sign is zero, or determined by whether the signs agree. -/
def div (s other : SignSet) : SignSet :=
  ⟨s.signs.biUnion (fun sa => other.signs.biUnion (fun sb =>
    if sb = .zero then ∅
    else if sa = .zero then {.zero}
    else if sa = sb then {.pos}
    else {.neg}))⟩

/-- SignSet.compare: relation signs of the abstract difference, filtered
through the operator.  The set of relations is returned in the canonical
order [-1, 0, 1]. -/
def compare (s other : SignSet) (op : CmpOp) : List Bool :=
  let diff := s.sub other
  let rs : List Int :=
    (if Sign.neg ∈ diff.signs then [-1] else []) ++
    (if Sign.zero ∈ diff.signs then [0] else []) ++
    (if Sign.pos ∈ diff.signs then [1] else [])
  (if rs.any (fun r => holds r op) then [true] else []) ++
  (if rs.any (fun r => !holds r op) then [false] else [])

/-- The compare_table of SignSet.constrain: possible relations between
concrete values of the two signs. -/
def compareTable : Sign → Sign → List Int
  | .neg, .neg => [-1, 0, 1]
  | .neg, .zero => [-1]
  | .neg, .pos => [-1]
  | .zero, .neg => [1]
  | .zero, .zero => [0]
  | .zero, .pos => [-1]
  | .pos, .neg => [1]
  | .pos, .zero => [1]
  | .pos, .pos => [-1, 0, 1]

/-- SignSet.constrain(prev, other, op): keep the signs of prev for which
some sign of other admits a relation making op true; the false side is the
complement within prev (the inner break of the source is an existence
test). -/
def constrain (prev other : SignSet) (op : CmpOp) : SignSet × SignSet :=
  let valid := prev.signs.filter
    (fun sx => ∃ sy ∈ other.signs, ∃ r ∈ compareTable sx sy, holds r op = true)
  (⟨valid⟩, ⟨prev.signs \ valid⟩)

end SignSet

/-! Order toolkit for PF (all comparisons are Python-float comparisons, so
every lemma either holds unconditionally or needs NaN-freeness). -/

theorem PF.le_refl {a : PF} (h : a ≠ PF.nan) : PF.le a a = true := by
  cases a <;> simp_all [PF.le]

theorem PF.le_trans {a b c : PF} (h1 : PF.le a b = true) (h2 : PF.le b c = true) :
    PF.le a c = true := by
  cases a <;> cases b <;> cases c <;> simp_all [PF.le] <;> linarith

theorem PF.le_of_lt {a b : PF} (h : PF.lt a b = true) : PF.le a b = true := by
  cases a <;> cases b <;> simp_all [PF.lt, PF.le] <;> linarith

theorem PF.lt_of_lt_of_le {a b c : PF} (h1 : PF.lt a b = true) (h2 : PF.le b c = true) :
    PF.lt a c = true := by
  cases a <;> cases b <;> cases c <;> simp_all [PF.lt, PF.le] <;> linarith

theorem PF.lt_of_le_of_lt {a b c : PF} (h1 : PF.le a b = true) (h2 : PF.lt b c = true) :
    PF.lt a c = true := by
  cases a <;> cases b <;> cases c <;> simp_all [PF.lt, PF.le] <;> linarith

theorem PF.ne_nan_left {a b : PF} (h : PF.le a b = true) : a ≠ PF.nan := by
  cases a <;> simp_all [PF.le]

theorem PF.ne_nan_right {a b : PF} (h : PF.le a b = true) : b ≠ PF.nan := by
  cases a <;> cases b <;> simp_all [PF.le]

theorem PF.not_lt_iff_le {a b : PF} (ha : a ≠ PF.nan) (hb : b ≠ PF.nan) :
    PF.lt a b = false ↔ PF.le b a = true := by
  cases a <;> cases b <;> simp_all [PF.lt, PF.le] <;> constructor <;> intro h <;> linarith

theorem PF.pymin_le_left {a b : PF} (ha : a ≠ PF.nan) (hb : b ≠ PF.nan) :
    PF.le (PF.pymin a b) a = true := by
  unfold PF.pymin
  by_cases h : PF.lt b a = true
  · simp [h, PF.le_of_lt h]
  · have h2 := (PF.not_lt_iff_le hb ha).mp (by simpa using h)
    simp [h, PF.le_refl ha]

theorem PF.pymin_le_right {a b : PF} (ha : a ≠ PF.nan) (hb : b ≠ PF.nan) :
    PF.le (PF.pymin a b) b = true := by
  unfold PF.pymin
  by_cases h : PF.lt b a = true
  · simp [h, PF.le_refl hb]
  · have h2 := (PF.not_lt_iff_le hb ha).mp (by simpa using h)
    simp [h, h2]

theorem PF.le_pymin {a b c : PF} (h1 : PF.le c a = true) (h2 : PF.le c b = true) :
    PF.le c (PF.pymin a b) = true := by
  unfold PF.pymin
  by_cases h : PF.lt b a = true <;> simp [h, h1, h2]

theorem PF.left_le_pymax {a b : PF} (ha : a ≠ PF.nan) (hb : b ≠ PF.nan) :
    PF.le a (PF.pymax a b) = true := by
  unfold PF.pymax
  by_cases h : PF.lt a b = true
  · simp [h, PF.le_of_lt h]
  · simp [h, PF.le_refl ha]

theorem PF.right_le_pymax {a b : PF} (ha : a ≠ PF.nan) (hb : b ≠ PF.nan) :
    PF.le b (PF.pymax a b) = true := by
  unfold PF.pymax
  by_cases h : PF.lt a b = true
  · simp [h, PF.le_refl hb]
  · have h2 := (PF.not_lt_iff_le ha hb).mp (by simpa using h)
    simp [h, h2]

theorem PF.pymax_le {a b c : PF} (h1 : PF.le a c = true) (h2 : PF.le b c = true) :
    PF.le (PF.pymax a b) c = true := by
  unfold PF.pymax
  by_cases h : PF.lt a b = true <;> simp [h, h1, h2]

theorem PF.pymin_ne_nan {a b : PF} (ha : a ≠ PF.nan) (hb : b ≠ PF.nan) :
    PF.pymin a b ≠ PF.nan := by
  unfold PF.pymin
  by_cases h : PF.lt b a = true <;> simp [h, ha, hb]

theorem PF.pymax_ne_nan {a b : PF} (ha : a ≠ PF.nan) (hb : b ≠ PF.nan) :
    PF.pymax a b ≠ PF.nan := by
  unfold PF.pymax
  by_cases h : PF.lt a b = true <;> simp [h, ha, hb]

theorem PF.not_lt_of_le {a b : PF} (h : PF.le a b = true) : PF.lt b a = false := by
  cases a <;> cases b <;> simp_all [PF.le, PF.lt]

/-! Lattice facts about the Interval join, for NaN-free elements. -/

theorem Interval.le_of_bottom {a b : Interval} (h : a.is_bottom = true) :
    Interval.le a b = true := by
  simp [Interval.le, h]

theorem Interval.not_bottom_le {a a2 : Interval} (ha : a.NanFree)
    (h : a.is_bottom = false) (hle : PF.le a2.lo a.lo = true ∧ PF.le a.hi a2.hi = true)
    (h2 : a2.is_bottom = false) : Interval.le a a2 = true := by
  simp [Interval.le, h, h2, hle.1, hle.2]

theorem Interval.or_not_bottom {a b : Interval} (ha : a.NanFree) (hb : b.NanFree)
    (h : a.is_bottom = false) (h2 : b.is_bottom = false) :
    (a.or b).is_bottom = false := by
  have hlo := PF.pymin_le_left ha.1 hb.1
  have hhi := PF.left_le_pymax ha.2 hb.2
  have haa : PF.le a.lo a.hi = true := by
    have := (PF.not_lt_iff_le ha.2 ha.1).mp (by simpa [Interval.is_bottom] using h)
    exact this
  have hmm : PF.le (PF.pymin a.lo b.lo) (PF.pymax a.hi b.hi) = true :=
    PF.le_trans (PF.le_trans hlo haa) hhi
  have hor : a.or b = ⟨PF.pymin a.lo b.lo, PF.pymax a.hi b.hi⟩ := by
    simp [Interval.or, h, h2]
  rw [hor, Interval.is_bottom]
  exact PF.not_lt_of_le hmm

theorem Interval.le_or_left {a b : Interval} (ha : a.NanFree) (hb : b.NanFree) :
    Interval.le a (a.or b) = true := by
  by_cases h : a.is_bottom = true
  · exact Interval.le_of_bottom h
  · have h := eq_false_of_ne_true h
    by_cases h2 : b.is_bottom = true
    · have hor : a.or b = a := by simp [Interval.or, h, h2]
      rw [hor]
      exact Interval.not_bottom_le ha h ⟨PF.le_refl ha.1, PF.le_refl ha.2⟩ h
    · have h2 := eq_false_of_ne_true h2
      have hnb := Interval.or_not_bottom ha hb h h2
      have hor : a.or b = ⟨PF.pymin a.lo b.lo, PF.pymax a.hi b.hi⟩ := by
        simp [Interval.or, h, h2]
      refine Interval.not_bottom_le ha h ?_ hnb
      rw [hor]
      exact ⟨PF.pymin_le_left ha.1 hb.1, PF.left_le_pymax ha.2 hb.2⟩

theorem Interval.le_or_right {a b : Interval} (ha : a.NanFree) (hb : b.NanFree) :
    Interval.le b (a.or b) = true := by
  by_cases h2 : b.is_bottom = true
  · exact Interval.le_of_bottom h2
  · have h2 := eq_false_of_ne_true h2
    by_cases h : a.is_bottom = true
    · have hor : a.or b = b := by simp [Interval.or, h]
      rw [hor]
      exact Interval.not_bottom_le hb h2 ⟨PF.le_refl hb.1, PF.le_refl hb.2⟩ h2
    · have h := eq_false_of_ne_true h
      have hnb := Interval.or_not_bottom ha hb h h2
      have hor : a.or b = ⟨PF.pymin a.lo b.lo, PF.pymax a.hi b.hi⟩ := by
        simp [Interval.or, h, h2]
      refine Interval.not_bottom_le hb h2 ?_ hnb
      rw [hor]
      exact ⟨PF.pymin_le_right ha.1 hb.1, PF.right_le_pymax ha.2 hb.2⟩

theorem Interval.or_le {a b c : Interval} (h1 : Interval.le a c = true)
    (h2 : Interval.le b c = true) : Interval.le (a.or b) c = true := by
  by_cases h : a.is_bottom = true
  · simpa [Interval.or, h] using h2
  · have h := eq_false_of_ne_true h
    by_cases hb2 : b.is_bottom = true
    · simpa [Interval.or, h, hb2] using h1
    · have hb2 := eq_false_of_ne_true hb2
      by_cases hc : c.is_bottom = true
      · rw [Interval.le, if_neg (by simp [h]), if_pos hc] at h1
        exact absurd h1 (by simp)
      · have hc := eq_false_of_ne_true hc
        rw [Interval.le, if_neg (by simp [h]), if_neg (by simp [hc])] at h1
        rw [Interval.le, if_neg (by simp [hb2]), if_neg (by simp [hc])] at h2
        simp only [Bool.and_eq_true] at h1 h2
        have hor : a.or b = ⟨PF.pymin a.lo b.lo, PF.pymax a.hi b.hi⟩ := by
          simp [Interval.or, h, hb2]
        rw [hor, Interval.le]
        by_cases hob : (Interval.mk (PF.pymin a.lo b.lo) (PF.pymax a.hi b.hi)).is_bottom = true
        · simp [hob]
        · rw [if_neg hob, if_neg (by simp [hc])]
          simp only [Bool.and_eq_true]
          exact ⟨PF.le_pymin h1.1 h2.1, PF.pymax_le h1.2 h2.2⟩

/-- Concrete integer semantics of the six comparison operators. -/
def cmpZ (op : CmpOp) (x y : ℤ) : Bool :=
  match op with
  | .eq => decide (x = y)
  | .ne => decide (x ≠ y)
  | .lt => decide (x < y)
  | .le => decide (x ≤ y)
  | .gt => decide (y < x)
  | .ge => decide (y ≤ x)

/-- The arithmetic relation (-1, 0 or 1) between two concrete integers. -/
def relOf (x y : ℤ) : Int := if x < y then -1 else if x = y then 0 else 1

theorem SignSet.concretize_iff {s : SignSet} {x : ℤ} :
    s.concretize x = true ↔ signOf x ∈ s.signs := by
  unfold SignSet.concretize signOf
  rcases lt_trichotomy x 0 with h | h | h
  · simp [h, h.ne, not_lt.mpr h.le]
  · simp [h]
  · simp [h, h.ne', not_lt.mpr h.le]

theorem relOf_mem_compareTable (x y : ℤ) :
    relOf x y ∈ SignSet.compareTable (signOf x) (signOf y) := by
  unfold signOf relOf SignSet.compareTable
  split_ifs <;> simp_all <;> omega

theorem holds_relOf {op : CmpOp} {x y : ℤ} : holds (relOf x y) op = cmpZ op x y := by
  cases op <;> unfold holds relOf cmpZ <;> split_ifs <;> simp_all <;> omega

theorem signset_constrain_true_sound {prev other : SignSet} {op : CmpOp} {x y : ℤ}
    (hx : prev.concretize x = true) (hy : other.concretize y = true)
    (hop : cmpZ op x y = true) :
    (SignSet.constrain prev other op).1.concretize x = true := by
  rw [SignSet.concretize_iff] at hx hy ⊢
  unfold SignSet.constrain
  simp only [Finset.mem_filter]
  exact ⟨hx, signOf y, hy, relOf x y, relOf_mem_compareTable x y,
    by rw [holds_relOf]; exact hop⟩

theorem PF.le_fin_fin {p q : ℚ} : PF.le (.fin p) (.fin q) = true ↔ p ≤ q := by
  simp [PF.le]

theorem PF.fin_le_cases {q : ℚ} {c : PF} (h : PF.le c (.fin q) = true) :
    c = .ninf ∨ ∃ r, c = .fin r ∧ r ≤ q := by
  cases c <;> simp_all [PF.le]

theorem PF.le_fin_cases {q : ℚ} {d : PF} (h : PF.le (.fin q) d = true) :
    d = .pinf ∨ ∃ r, d = .fin r ∧ q ≤ r := by
  cases d <;> simp_all [PF.le]

theorem Interval.mem_iff {s : Interval} {x : ℚ} :
    s.mem x = true ↔
      s.is_bottom = false ∧ PF.le s.lo (.fin x) = true ∧ PF.le (.fin x) s.hi = true := by
  simp [Interval.mem, Bool.and_eq_true, Bool.not_eq_true', and_assoc]

theorem Interval.mem_of {lo hi : PF} {x : ℚ} (h1 : PF.le lo (.fin x) = true)
    (h2 : PF.le (.fin x) hi = true) : (Interval.of lo hi).mem x = true := by
  have hb : PF.lt hi lo = false := PF.not_lt_of_le (PF.le_trans h1 h2)
  simp [Interval.of, hb, Interval.mem, Interval.is_bottom, h1, h2]

theorem interval_constrain_true_sound {prev other : Interval} {op : CmpOp} {x y : ℤ}
    (hop : op ≠ CmpOp.ne)
    (hx : prev.memZ x = true) (hy : other.memZ y = true)
    (hc : cmpZ op x y = true) :
    (Interval.constrain prev other op).1.memZ x = true := by
  unfold Interval.memZ at hx hy ⊢
  rw [Interval.mem_iff] at hx hy
  obtain ⟨hpb, hxlo, hxhi⟩ := hx
  obtain ⟨hob, hylo, hyhi⟩ := hy
  unfold Interval.constrain
  rw [if_neg (by simp [hpb, hob])]
  cases op with
  | ne => exact absurd rfl hop
  | lt =>
    have hcon : x < y := by simpa [cmpZ] using hc
    have hxy : PF.le (.fin (x : ℚ)) (.fin (y : ℚ)) = true := by
      rw [PF.le_fin_fin]
      exact_mod_cast hcon.le
    have hbr : PF.le other.hi prev.lo = false := by
      by_contra hcontra
      have h1 : PF.le other.hi prev.lo = true := by
        revert hcontra
        cases PF.le other.hi prev.lo <;> simp
      have := PF.le_trans (PF.le_trans hyhi h1) hxlo
      rw [PF.le_fin_fin] at this
      have : y ≤ x := by exact_mod_cast this
      omega
    dsimp only
    rw [if_neg (by simp [hbr])]
    simp only
    refine Interval.mem_of hxlo (PF.le_pymin hxhi ?_)
    rcases PF.le_fin_cases hyhi with hd | ⟨r, hd, hyr⟩
    · simp [hd, PF.sub, PF.add, PF.neg, PF.le]
    · rw [hd]
      show PF.le (.fin (x : ℚ)) (PF.sub (.fin r) (.fin 1)) = true
      simp only [PF.sub, PF.add, PF.neg, PF.le_fin_fin]
      have : (x : ℚ) + 1 ≤ (y : ℚ) := by exact_mod_cast Int.add_one_le_iff.mpr hcon
      linarith
  | le =>
    have hcon : x ≤ y := by simpa [cmpZ] using hc
    have hxy : PF.le (.fin (x : ℚ)) (.fin (y : ℚ)) = true := by
      rw [PF.le_fin_fin]
      exact_mod_cast hcon
    have hbr : PF.lt other.hi prev.lo = false := by
      by_contra hcontra
      have h1 : PF.lt other.hi prev.lo = true := by
        revert hcontra
        cases PF.lt other.hi prev.lo <;> simp
      have := PF.lt_of_le_of_lt (PF.le_trans hxy hyhi) h1
      have := PF.lt_of_lt_of_le this hxlo
      cases this_eq : PF.lt (.fin (x : ℚ)) (.fin (x : ℚ)) with
      | false => rw [this_eq] at this; exact absurd this (by simp)
      | true => simp [PF.lt] at this_eq
    dsimp only
    rw [if_neg (by simp [hbr])]
    simp only
    exact Interval.mem_of hxlo (PF.le_pymin hxhi (PF.le_trans hxy hyhi))
  | gt =>
    have hcon : y < x := by simpa [cmpZ] using hc
    have hbr : PF.le prev.hi other.lo = false := by
      by_contra hcontra
      have h1 : PF.le prev.hi other.lo = true := by
        revert hcontra
        cases PF.le prev.hi other.lo <;> simp
      have := PF.le_trans (PF.le_trans hxhi h1) hylo
      rw [PF.le_fin_fin] at this
      have : x ≤ y := by exact_mod_cast this
      omega
    dsimp only
    rw [if_neg (by simp [hbr])]
    simp only
    refine Interval.mem_of (PF.pymax_le hxlo ?_) hxhi
    rcases PF.fin_le_cases hylo with hcc | ⟨r, hcc, hyr⟩
    · simp [hcc, PF.add, PF.le]
    · rw [hcc]
      show PF.le (PF.add (.fin r) (.fin 1)) (.fin (x : ℚ)) = true
      simp only [PF.add, PF.le_fin_fin]
      have : (y : ℚ) + 1 ≤ (x : ℚ) := by exact_mod_cast Int.add_one_le_iff.mpr hcon
      linarith
  | ge =>
    have hcon : y ≤ x := by simpa [cmpZ] using hc
    have hyx : PF.le (.fin (y : ℚ)) (.fin (x : ℚ)) = true := by
      rw [PF.le_fin_fin]
      exact_mod_cast hcon
    have hbr : PF.lt prev.hi other.lo = false := by
      by_contra hcontra
      have h1 : PF.lt prev.hi other.lo = true := by
        revert hcontra
        cases PF.lt prev.hi other.lo <;> simp
      have := PF.lt_of_le_of_lt hxhi h1
      have := PF.lt_of_lt_of_le this (PF.le_trans hylo hyx)
      simp [PF.lt] at this
    dsimp only
    rw [if_neg (by simp [hbr])]
    simp only
    exact Interval.mem_of (PF.pymax_le hxlo (PF.le_trans hylo hyx)) hxhi
  | eq =>
    have hcon : x = y := by simpa [cmpZ] using hc
    subst hcon
    have hlo2 : PF.le (PF.pymax prev.lo other.lo) (.fin (x : ℚ)) = true :=
      PF.pymax_le hxlo hylo
    have hhi2 : PF.le (.fin (x : ℚ)) (PF.pymin prev.hi other.hi) = true :=
      PF.le_pymin hxhi hyhi
    dsimp only
    have hib : (Interval.inter2 prev.lo prev.hi other.lo other.hi).is_bottom = false := by
      have hlh := PF.le_trans hlo2 hhi2
      simp only [Interval.inter2]
      rw [if_neg (by simp [PF.not_lt_of_le hlh])]
      simp only [Interval.is_bottom]
      exact PF.not_lt_of_le hlh
    rw [if_neg (by simp [hib])]
    by_cases hsub : (PF.le other.lo prev.lo && PF.le prev.hi other.hi) = true
    · rw [if_pos hsub]
      simp only
      rw [Interval.mem_iff]
      exact ⟨hpb, hxlo, hxhi⟩
    · rw [if_neg hsub]
      simp only [Interval.inter2]
      have hlh := PF.le_trans hlo2 hhi2
      rw [if_neg (by simp [PF.not_lt_of_le hlh])]
      rw [Interval.mem_iff]
      refine ⟨?_, hlo2, hhi2⟩
      simp only [Interval.is_bottom]
      exact PF.not_lt_of_le hlh

theorem PF.le_add_one {a b : PF} (h : PF.le a b = true) :
    PF.le a (PF.add b (.fin 1)) = true := by
  cases a <;> cases b <;> simp_all [PF.le, PF.add] <;> linarith

theorem PF.sub_one_le {a b : PF} (h : PF.le a b = true) :
    PF.le (PF.sub a (.fin 1)) b = true := by
  cases a <;> cases b <;> simp_all [PF.le, PF.sub, PF.add, PF.neg] <;> linarith

theorem PF.sub_fin_ne_nan {d : PF} {q : ℚ} (h : d ≠ PF.nan) :
    PF.sub d (.fin q) ≠ PF.nan := by
  cases d <;> simp_all [PF.sub, PF.add, PF.neg]

theorem PF.add_fin_ne_nan {c : PF} {q : ℚ} (h : c ≠ PF.nan) :
    PF.add c (.fin q) ≠ PF.nan := by
  cases c <;> simp_all [PF.add]

theorem PF.lt_of_not_le {a b : PF} (h : PF.le a b = false) (ha : a ≠ PF.nan)
    (hb : b ≠ PF.nan) : PF.lt b a = true := by
  cases a <;> cases b <;> simp_all [PF.le, PF.lt] <;> linarith

theorem PF.pymin_eq_or (a b : PF) : PF.pymin a b = a ∨ PF.pymin a b = b := by
  unfold PF.pymin
  split_ifs <;> simp

theorem PF.pymax_eq_or (a b : PF) : PF.pymax a b = a ∨ PF.pymax a b = b := by
  unfold PF.pymax
  split_ifs <;> simp

theorem PF.add_sub_one {d : PF} (h : d ≠ PF.nan) (h2 : d ≠ PF.ninf) :
    PF.add (PF.sub d (.fin 1)) (.fin 1) = d := by
  cases d <;> simp_all [PF.sub, PF.add, PF.neg]

theorem PF.sub_add_one {c : PF} (h : c ≠ PF.nan) (h2 : c ≠ PF.pinf) :
    PF.sub (PF.add c (.fin 1)) (.fin 1) = c := by
  cases c <;> simp_all [PF.sub, PF.add, PF.neg]

theorem Interval.le_self {s : Interval} (h : s.NanFree) : Interval.le s s = true := by
  by_cases hb : s.is_bottom = true
  · exact Interval.le_of_bottom hb
  · have hb := eq_false_of_ne_true hb
    simp [Interval.le, hb, PF.le_refl h.1, PF.le_refl h.2]

theorem Interval.empty_le (t : Interval) : Interval.le Interval.empty t = true :=
  Interval.le_of_bottom (by decide)

theorem Interval.of_le_of_bounds {lo hi : PF} {t : Interval}
    (htb : t.is_bottom = false) (h1 : PF.le t.lo lo = true) (h2 : PF.le hi t.hi = true) :
    Interval.le (Interval.of lo hi) t = true := by
  unfold Interval.of
  by_cases hb : PF.lt hi lo = true
  · rw [if_pos hb]
    exact Interval.empty_le t
  · rw [if_neg hb]
    by_cases hbb : (Interval.mk lo hi).is_bottom = true
    · exact Interval.le_of_bottom hbb
    · have hbb := eq_false_of_ne_true hbb
      simp [Interval.le, hbb, htb, h1, h2]

theorem Interval.inter2_le {t : Interval} {c d : PF} (ht : t.NanFree)
    (hc : c ≠ PF.nan) (hd : d ≠ PF.nan) (htb : t.is_bottom = false) :
    Interval.le (Interval.inter2 t.lo t.hi c d) t = true := by
  unfold Interval.inter2
  dsimp only
  by_cases hb : PF.lt (PF.pymin t.hi d) (PF.pymax t.lo c) = true
  · rw [if_pos hb]
    exact Interval.empty_le t
  · rw [if_neg hb]
    by_cases hsb : (Interval.mk (PF.pymax t.lo c) (PF.pymin t.hi d)).is_bottom = true
    · exact Interval.le_of_bottom hsb
    · exact Interval.not_bottom_le ⟨PF.pymax_ne_nan ht.1 hc, PF.pymin_ne_nan ht.2 hd⟩
        (eq_false_of_ne_true hsb)
        ⟨PF.left_le_pymax ht.1 hc, PF.pymin_le_left ht.2 hd⟩ htb

theorem interval_constrain_le_prev (prev other : Interval) (op : CmpOp)
    (hp : prev.NanFree) (ho : other.NanFree) :
    Interval.le (Interval.constrain prev other op).1 prev = true ∧
    Interval.le (Interval.constrain prev other op).2 prev = true := by
  unfold Interval.constrain
  by_cases hguard : (prev.is_bottom || other.is_bottom) = true
  · rw [if_pos hguard]
    exact ⟨Interval.empty_le prev, Interval.empty_le prev⟩
  · rw [if_neg hguard]
    simp only [Bool.or_eq_true] at hguard
    push_neg at hguard
    have hpb : prev.is_bottom = false := by
      revert hguard
      cases prev.is_bottom <;> simp
    have hob : other.is_bottom = false := by
      have := hguard
      revert this
      cases other.is_bottom <;> simp
    have hab : PF.le prev.lo prev.hi = true := by
      rw [← PF.not_lt_iff_le hp.2 hp.1]
      simpa [Interval.is_bottom] using hpb
    cases op with
    | lt =>
      dsimp only
      by_cases hbr : PF.le other.hi prev.lo = true
      · rw [if_pos hbr]
        exact ⟨Interval.empty_le prev, Interval.le_self hp⟩
      · rw [if_neg hbr]
        have hbr := eq_false_of_ne_true hbr
        have hdn : other.hi ≠ PF.ninf := by
          intro h
          rw [h] at hbr
          cases hpl : prev.lo with
          | nan => exact hp.1 hpl
          | ninf => rw [hpl] at hbr; simp [PF.le] at hbr
          | pinf => rw [hpl] at hbr; simp [PF.le] at hbr
          | fin q => rw [hpl] at hbr; simp [PF.le] at hbr
        constructor
        · exact Interval.of_le_of_bounds hpb (PF.le_refl hp.1)
            (PF.pymin_le_left hp.2 (PF.sub_fin_ne_nan ho.2))
        · by_cases hlt : PF.lt (PF.pymin prev.hi (PF.sub other.hi (.fin 1))) prev.hi = true
          · rw [if_pos hlt]
            refine Interval.of_le_of_bounds hpb ?_ (PF.le_refl hp.2)
            rcases PF.pymin_eq_or prev.hi (PF.sub other.hi (.fin 1)) with hm | hm <;> rw [hm]
            · exact PF.le_add_one hab
            · rw [PF.add_sub_one ho.2 hdn]
              exact PF.le_of_lt (PF.lt_of_not_le hbr ho.2 hp.1)
          · rw [if_neg hlt]
            exact Interval.empty_le prev
    | le =>
      dsimp only
      by_cases hbr : PF.lt other.hi prev.lo = true
      · rw [if_pos hbr]
        exact ⟨Interval.empty_le prev, Interval.le_self hp⟩
      · rw [if_neg hbr]
        have hda : PF.le prev.lo other.hi = true :=
          (PF.not_lt_iff_le ho.2 hp.1).mp (eq_false_of_ne_true hbr)
        constructor
        · exact Interval.of_le_of_bounds hpb (PF.le_refl hp.1)
            (PF.pymin_le_left hp.2 ho.2)
        · by_cases hlt : PF.lt (PF.pymin prev.hi other.hi) prev.hi = true
          · rw [if_pos hlt]
            refine Interval.of_le_of_bounds hpb ?_ (PF.le_refl hp.2)
            rcases PF.pymin_eq_or prev.hi other.hi with hm | hm <;> rw [hm]
            · exact PF.le_add_one hab
            · exact PF.le_add_one hda
          · rw [if_neg hlt]
            exact Interval.empty_le prev
    | gt =>
      dsimp only
      by_cases hbr : PF.le prev.hi other.lo = true
      · rw [if_pos hbr]
        exact ⟨Interval.empty_le prev, Interval.le_self hp⟩
      · rw [if_neg hbr]
        have hbr := eq_false_of_ne_true hbr
        have hcp : other.lo ≠ PF.pinf := by
          intro h
          rw [h] at hbr
          cases hph : prev.hi with
          | nan => exact hp.2 hph
          | ninf => rw [hph] at hbr; simp [PF.le] at hbr
          | pinf => rw [hph] at hbr; simp [PF.le] at hbr
          | fin q => rw [hph] at hbr; simp [PF.le] at hbr
        constructor
        · exact Interval.of_le_of_bounds hpb
            (PF.left_le_pymax hp.1 (PF.add_fin_ne_nan ho.1)) (PF.le_refl hp.2)
        · by_cases hlt : PF.lt prev.lo (PF.pymax prev.lo (PF.add other.lo (.fin 1))) = true
          · rw [if_pos hlt]
            refine Interval.of_le_of_bounds hpb (PF.le_refl hp.1) ?_
            rcases PF.pymax_eq_or prev.lo (PF.add other.lo (.fin 1)) with hm | hm <;> rw [hm]
            · exact PF.sub_one_le hab
            · rw [PF.sub_add_one ho.1 hcp]
              exact PF.le_of_lt (PF.lt_of_not_le hbr hp.2 ho.1)
          · rw [if_neg hlt]
            exact Interval.empty_le prev
    | ge =>
      dsimp only
      by_cases hbr : PF.lt prev.hi other.lo = true
      · rw [if_pos hbr]
        exact ⟨Interval.empty_le prev, Interval.le_self hp⟩
      · rw [if_neg hbr]
        have hcb : PF.le other.lo prev.hi = true :=
          (PF.not_lt_iff_le hp.2 ho.1).mp (eq_false_of_ne_true hbr)
        constructor
        · exact Interval.of_le_of_bounds hpb
            (PF.left_le_pymax hp.1 ho.1) (PF.le_refl hp.2)
        · by_cases hlt : PF.lt prev.lo (PF.pymax prev.lo other.lo) = true
          · rw [if_pos hlt]
            refine Interval.of_le_of_bounds hpb (PF.le_refl hp.1) ?_
            rcases PF.pymax_eq_or prev.lo other.lo with hm | hm <;> rw [hm]
            · exact PF.sub_one_le hab
            · exact PF.sub_one_le hcb
          · rw [if_neg hlt]
            exact Interval.empty_le prev
    | eq =>
      dsimp only
      by_cases hib : (Interval.inter2 prev.lo prev.hi other.lo other.hi).is_bottom = true
      · rw [if_pos hib]
        exact ⟨Interval.empty_le prev, Interval.le_self hp⟩
      · rw [if_neg hib]
        by_cases hsub : (PF.le other.lo prev.lo && PF.le prev.hi other.hi) = true
        · rw [if_pos hsub]
          exact ⟨Interval.le_self hp, Interval.empty_le prev⟩
        · rw [if_neg hsub]
          exact ⟨Interval.inter2_le hp ho.1 ho.2 hpb, Interval.le_self hp⟩
    | ne =>
      dsimp only
      by_cases hib : (Interval.inter2 prev.lo prev.hi other.lo other.hi).is_bottom = true
      · rw [if_pos hib]
        exact ⟨Interval.le_self hp, Interval.empty_le prev⟩
      · rw [if_neg hib]
        by_cases hpt : (PF.peq prev.lo prev.hi && PF.le other.lo prev.lo &&
            PF.le prev.lo other.hi) = true
        · rw [if_pos hpt]
          exact ⟨Interval.empty_le prev, Interval.le_self hp⟩
        · rw [if_neg hpt]
          exact ⟨Interval.le_self hp, Interval.le_self hp⟩

theorem signset_constrain_le_prev (prev other : SignSet) (op : CmpOp) :
    SignSet.le (SignSet.constrain prev other op).1 prev = true ∧
    SignSet.le (SignSet.constrain prev other op).2 prev = true := by
  unfold SignSet.constrain SignSet.le
  refine ⟨?_, ?_⟩
  · simpa using Finset.filter_subset _ prev.signs
  · simpa using Finset.sdiff_subset

/-- C2 counterexample: the claim fails as stated.  With prev = other = {+}
(abstract({1})), op = eq, x = 1, y = 2: eq(1,2) fails but the false-side
refinement is the empty sign set, which does not concretise to 1.  With the
intervals prev = [1,1], other = [0,2], op = ne, x = 1, y = 2: ne(1,2) holds
but the true-side refinement is bottom, which does not contain 1. -/
theorem C2_constrain_soundness_cex :
    SignSet.concretize (SignSet.abstract [1]) 1 = true ∧
    SignSet.concretize (SignSet.abstract [1]) 2 = true ∧
    cmpZ CmpOp.eq 1 2 = false ∧
    SignSet.concretize
      (SignSet.constrain (SignSet.abstract [1]) (SignSet.abstract [1]) CmpOp.eq).2 1
      = false ∧
    Interval.memZ (Interval.abstract [1]) 1 = true ∧
    Interval.memZ (Interval.abstract [0, 2]) 2 = true ∧
    cmpZ CmpOp.ne 1 2 = true ∧
    Interval.memZ
      (Interval.constrain (Interval.abstract [1]) (Interval.abstract [0, 2]) CmpOp.ne).1 1
      = false := by
  decide

/-- C2 (amended): both constrain results are below prev in both domains
(interval elements being the NaN-free ones of the data model), and the
TRUE-side refinement is sound: for concrete x in gamma(prev) and y in
gamma(other) with op(x, y) true, x remains in gamma(refined_true) — for
SignSet for all six operators, for Interval for all operators except ne.
The false-side soundness claimed by the spec does not hold (see the
counterexample). -/
theorem C2_constrain_soundness_amended :
    (∀ (prev other : SignSet) (op : CmpOp) (x y : ℤ),
      prev.concretize x = true → other.concretize y = true → cmpZ op x y = true →
      (SignSet.constrain prev other op).1.concretize x = true) ∧
    (∀ (prev other : SignSet) (op : CmpOp),
      SignSet.le (SignSet.constrain prev other op).1 prev = true ∧
      SignSet.le (SignSet.constrain prev other op).2 prev = true) ∧
    (∀ (prev other : Interval) (op : CmpOp) (x y : ℤ), op ≠ CmpOp.ne →
      prev.memZ x = true → other.memZ y = true → cmpZ op x y = true →
      (Interval.constrain prev other op).1.memZ x = true) ∧
    (∀ (prev other : Interval) (op : CmpOp), prev.NanFree → other.NanFree →
      Interval.le (Interval.constrain prev other op).1 prev = true ∧
      Interval.le (Interval.constrain prev other op).2 prev = true) :=
  ⟨fun _ _ _ _ _ hx hy hc => signset_constrain_true_sound hx hy hc,
   signset_constrain_le_prev,
   fun _ _ _ _ _ hop hx hy hc => interval_constrain_true_sound hop hx hy hc,
   interval_constrain_le_prev⟩

/-- Witness for the amended C2 at concrete inputs: {+} against {0} under gt,
and [0,5] against [3,3] under lt. -/
theorem C2_constrain_soundness_amended_witness :
    (SignSet.constrain (SignSet.abstract [1]) (SignSet.abstract [0]) CmpOp.gt).1.concretize 1
      = true ∧
    (Interval.constrain (Interval.abstract [0, 5]) (Interval.abstract [3]) CmpOp.lt).1.memZ 2
      = true ∧
    Interval.le (Interval.constrain (Interval.abstract [0, 5]) (Interval.abstract [3])
      CmpOp.lt).2 (Interval.abstract [0, 5]) = true := by
  refine ⟨?_, ?_, ?_⟩
  · exact C2_constrain_soundness_amended.1 (SignSet.abstract [1]) (SignSet.abstract [0])
      CmpOp.gt 1 0 (by decide) (by decide) (by decide)
  · exact C2_constrain_soundness_amended.2.2.1 (Interval.abstract [0, 5])
      (Interval.abstract [3]) CmpOp.lt 2 3 (by decide) (by decide) (by decide) (by decide)
  · exact (C2_constrain_soundness_amended.2.2.2 (Interval.abstract [0, 5])
      (Interval.abstract [3]) CmpOp.lt (by decide) (by decide)).2

theorem sign_add_mem (x y : ℤ) :
    signOf (x + y) ∈ SignSet.addTable (signOf x) (signOf y) := by
  unfold signOf SignSet.addTable
  split_ifs <;> simp_all <;> omega

theorem sign_mul_mem (x y : ℤ) :
    signOf (x * y) ∈ SignSet.mulTable (signOf x) (signOf y) := by
  rcases lt_trichotomy x 0 with hx | hx | hx <;>
    rcases lt_trichotomy y 0 with hy | hy | hy
  · have h : 0 < x * y := mul_pos_of_neg_of_neg hx hy
    simp [signOf, SignSet.mulTable, hx.ne, hy.ne, not_lt.mpr hx.le,
      not_lt.mpr hy.le, h.ne', h]
  · simp [signOf, SignSet.mulTable, hx.ne, hy, not_lt.mpr hx.le]
  · have h : x * y < 0 := mul_neg_of_neg_of_pos hx hy
    simp [signOf, SignSet.mulTable, hx.ne, hy.ne', not_lt.mpr hx.le, hy,
      h.ne, not_lt.mpr h.le]
  · simp [signOf, SignSet.mulTable, hx, hy.ne, not_lt.mpr hy.le]
  · simp [signOf, SignSet.mulTable, hx, hy]
  · simp [signOf, SignSet.mulTable, hx, hy.ne', hy]
  · have h : x * y < 0 := mul_neg_of_pos_of_neg hx hy
    simp [signOf, SignSet.mulTable, hx.ne', hy.ne, hx, not_lt.mpr hy.le,
      h.ne, not_lt.mpr h.le]
  · simp [signOf, SignSet.mulTable, hx.ne', hx, hy]
  · have h : 0 < x * y := mul_pos hx hy
    simp [signOf, SignSet.mulTable, hx.ne', hx, hy.ne', hy, h.ne', h]

theorem sign_neg (y : ℤ) : signOf (-y) = SignSet.negateSign (signOf y) := by
  unfold signOf SignSet.negateSign
  split_ifs <;> simp_all <;> omega

theorem mem_lift_bin {a b : SignSet} {sa sb t : Sign}
    (ha : sa ∈ a.signs) (hb : sb ∈ b.signs)
    {table : Sign → Sign → Finset Sign} (ht : t ∈ table sa sb) :
    t ∈ (SignSet.lift_bin a b table).signs := by
  unfold SignSet.lift_bin
  simp only [Finset.mem_biUnion]
  exact ⟨sa, ha, sb, hb, ht⟩

theorem signset_add_sound {a b : SignSet} {x y : ℤ}
    (hx : a.concretize x = true) (hy : b.concretize y = true) :
    (a.add b).concretize (x + y) = true := by
  rw [SignSet.concretize_iff] at hx hy ⊢
  exact mem_lift_bin hx hy (sign_add_mem x y)

theorem signset_sub_sound {a b : SignSet} {x y : ℤ}
    (hx : a.concretize x = true) (hy : b.concretize y = true) :
    (a.sub b).concretize (x - y) = true := by
  rw [SignSet.concretize_iff] at hx hy ⊢
  have hneg : signOf (-y) ∈ b.negate.signs := by
    rw [sign_neg]
    exact Finset.mem_image_of_mem _ hy
  have := mem_lift_bin hx hneg (sign_add_mem x (-y))
  unfold SignSet.sub SignSet.add
  rw [sub_eq_add_neg]
  exact this

theorem signset_mul_sound {a b : SignSet} {x y : ℤ}
    (hx : a.concretize x = true) (hy : b.concretize y = true) :
    (a.mul b).concretize (x * y) = true := by
  rw [SignSet.concretize_iff] at hx hy ⊢
  exact mem_lift_bin hx hy (sign_mul_mem x y)

theorem PF.add_le_fin {a b : PF} {x y : ℚ} (h1 : PF.le a (.fin x) = true)
    (h2 : PF.le b (.fin y) = true) : PF.le (PF.add a b) (.fin (x + y)) = true := by
  cases a <;> cases b <;> simp_all [PF.le, PF.add] <;> linarith

theorem PF.fin_le_add {a b : PF} {x y : ℚ} (h1 : PF.le (.fin x) a = true)
    (h2 : PF.le (.fin y) b = true) : PF.le (.fin (x + y)) (PF.add a b) = true := by
  cases a <;> cases b <;> simp_all [PF.le, PF.add] <;> linarith

theorem PF.sub_le_fin {a d : PF} {x y : ℚ} (h1 : PF.le a (.fin x) = true)
    (h2 : PF.le (.fin y) d = true) : PF.le (PF.sub a d) (.fin (x - y)) = true := by
  cases a <;> cases d <;> simp_all [PF.le, PF.sub, PF.add, PF.neg] <;> linarith

theorem PF.fin_le_sub {b c : PF} {x y : ℚ} (h1 : PF.le (.fin x) b = true)
    (h2 : PF.le c (.fin y) = true) : PF.le (.fin (x - y)) (PF.sub b c) = true := by
  cases b <;> cases c <;> simp_all [PF.le, PF.sub, PF.add, PF.neg] <;> linarith

theorem interval_add_sound {a b : Interval} {x y : ℤ}
    (hx : a.memZ x = true) (hy : b.memZ y = true) :
    (a.add b).memZ (x + y) = true := by
  unfold Interval.memZ at hx hy ⊢
  rw [Interval.mem_iff] at hx hy
  obtain ⟨hab, hx1, hx2⟩ := hx
  obtain ⟨hbb, hy1, hy2⟩ := hy
  unfold Interval.add
  rw [if_neg (by simp [hab, hbb])]
  have hlo : PF.le (PF.add a.lo b.lo) (.fin ((x : ℚ) + (y : ℚ))) = true :=
    PF.add_le_fin hx1 hy1
  have hhi : PF.le (.fin ((x : ℚ) + (y : ℚ))) (PF.add a.hi b.hi) = true :=
    PF.fin_le_add hx2 hy2
  rw [Interval.mem_iff]
  refine ⟨?_, by push_cast; exact hlo, by push_cast; exact hhi⟩
  simp only [Interval.is_bottom]
  exact PF.not_lt_of_le (PF.le_trans hlo hhi)

theorem interval_sub_sound {a b : Interval} {x y : ℤ}
    (hx : a.memZ x = true) (hy : b.memZ y = true) :
    (a.sub b).memZ (x - y) = true := by
  unfold Interval.memZ at hx hy ⊢
  rw [Interval.mem_iff] at hx hy
  obtain ⟨hab, hx1, hx2⟩ := hx
  obtain ⟨hbb, hy1, hy2⟩ := hy
  unfold Interval.sub
  rw [if_neg (by simp [hab, hbb])]
  have hlo : PF.le (PF.sub a.lo b.hi) (.fin ((x : ℚ) - (y : ℚ))) = true :=
    PF.sub_le_fin hx1 hy2
  have hhi : PF.le (.fin ((x : ℚ) - (y : ℚ))) (PF.sub a.hi b.lo) = true :=
    PF.fin_le_sub hx2 hy1
  rw [Interval.mem_iff]
  refine ⟨?_, by push_cast; exact hlo, by push_cast; exact hhi⟩
  simp only [Interval.is_bottom]
  exact PF.not_lt_of_le (PF.le_trans hlo hhi)

theorem PF.pymin_fin (u v : ℚ) : PF.pymin (.fin u) (.fin v) = .fin (min u v) := by
  unfold PF.pymin PF.lt
  split_ifs with h
  · simp only [decide_eq_true_eq] at h
    rw [min_eq_right h.le]
  · simp only [decide_eq_true_eq, not_lt] at h
    rw [min_eq_left h]

theorem PF.pymax_fin (u v : ℚ) : PF.pymax (.fin u) (.fin v) = .fin (max u v) := by
  unfold PF.pymax PF.lt
  split_ifs with h
  · simp only [decide_eq_true_eq] at h
    rw [max_eq_right h.le]
  · simp only [decide_eq_true_eq, not_lt] at h
    rw [max_eq_left h]

theorem rat_mul_lower {p1 q1 p2 q2 x y : ℚ} (h1 : p1 ≤ x) (h2 : x ≤ q1)
    (h3 : p2 ≤ y) (h4 : y ≤ q2) :
    min (min (min (p1 * p2) (p1 * q2)) (q1 * p2)) (q1 * q2) ≤ x * y := by
  have key : p1 * y ≤ x * y ∨ q1 * y ≤ x * y := by
    rcases le_total 0 y with hy | hy
    · exact Or.inl (by nlinarith)
    · exact Or.inr (by nlinarith)
  have kp : min (p1 * p2) (p1 * q2) ≤ p1 * y := by
    rcases le_total 0 p1 with hp | hp
    · exact le_trans (min_le_left _ _) (by nlinarith)
    · exact le_trans (min_le_right _ _) (by nlinarith)
  have kq : min (q1 * p2) (q1 * q2) ≤ q1 * y := by
    rcases le_total 0 q1 with hp | hp
    · exact le_trans (min_le_left _ _) (by nlinarith)
    · exact le_trans (min_le_right _ _) (by nlinarith)
  rcases key with k | k
  · exact le_trans (le_trans (le_trans (min_le_left _ _) (min_le_left _ _)) kp) k
  · have h5 : min (min (min (p1 * p2) (p1 * q2)) (q1 * p2)) (q1 * q2) ≤
        min (q1 * p2) (q1 * q2) :=
      le_min (le_trans (min_le_left _ _) (min_le_right _ _)) (min_le_right _ _)
    exact le_trans h5 (le_trans kq k)

theorem rat_mul_upper {p1 q1 p2 q2 x y : ℚ} (h1 : p1 ≤ x) (h2 : x ≤ q1)
    (h3 : p2 ≤ y) (h4 : y ≤ q2) :
    x * y ≤ max (max (max (p1 * p2) (p1 * q2)) (q1 * p2)) (q1 * q2) := by
  have key : x * y ≤ p1 * y ∨ x * y ≤ q1 * y := by
    rcases le_total 0 y with hy | hy
    · exact Or.inr (by nlinarith)
    · exact Or.inl (by nlinarith)
  have kp : p1 * y ≤ max (p1 * p2) (p1 * q2) := by
    rcases le_total 0 p1 with hp | hp
    · exact le_trans (by nlinarith) (le_max_right _ _)
    · exact le_trans (by nlinarith) (le_max_left _ _)
  have kq : q1 * y ≤ max (q1 * p2) (q1 * q2) := by
    rcases le_total 0 q1 with hp | hp
    · exact le_trans (by nlinarith) (le_max_right _ _)
    · exact le_trans (by nlinarith) (le_max_left _ _)
  have h6 : max (p1 * p2) (p1 * q2) ≤
      max (max (max (p1 * p2) (p1 * q2)) (q1 * p2)) (q1 * q2) :=
    le_trans (le_max_left _ _) (le_max_left _ _)
  have h7 : max (q1 * p2) (q1 * q2) ≤
      max (max (max (p1 * p2) (p1 * q2)) (q1 * p2)) (q1 * q2) :=
    max_le (le_trans (le_max_right _ _) (le_max_left _ _)) (le_max_right _ _)
  rcases key with k | k
  · exact le_trans k (le_trans kp h6)
  · exact le_trans k (le_trans kq h7)

theorem interval_mul_sound_finite {a b : Interval} {x y : ℤ} {p1 q1 p2 q2 : ℚ}
    (ha1 : a.lo = .fin p1) (ha2 : a.hi = .fin q1)
    (hb1 : b.lo = .fin p2) (hb2 : b.hi = .fin q2)
    (hx : a.memZ x = true) (hy : b.memZ y = true) :
    (a.mul b).memZ (x * y) = true := by
  unfold Interval.memZ at hx hy ⊢
  rw [Interval.mem_iff] at hx hy
  obtain ⟨hab, hx1, hx2⟩ := hx
  obtain ⟨hbb, hy1, hy2⟩ := hy
  rw [ha1] at hx1
  rw [ha2] at hx2
  rw [hb1] at hy1
  rw [hb2] at hy2
  rw [PF.le_fin_fin] at hx1 hx2 hy1 hy2
  unfold Interval.mul
  rw [if_neg (by simp [hab, hbb])]
  simp only [ha1, ha2, hb1, hb2, PF.mul]
  have hfold :
      PF.pyminList [.fin (p1 * p2), .fin (p1 * q2), .fin (q1 * p2), .fin (q1 * q2)]
        = .fin (min (min (min (p1 * p2) (p1 * q2)) (q1 * p2)) (q1 * q2)) ∧
      PF.pymaxList [.fin (p1 * p2), .fin (p1 * q2), .fin (q1 * p2), .fin (q1 * q2)]
        = .fin (max (max (max (p1 * p2) (p1 * q2)) (q1 * p2)) (q1 * q2)) := by
    constructor <;> simp [PF.pyminList, PF.pymaxList, PF.pymin_fin, PF.pymax_fin]
  rw [hfold.1, hfold.2, Interval.mem_iff]
  have hlow := rat_mul_lower hx1 hx2 hy1 hy2
  have hup := rat_mul_upper hx1 hx2 hy1 hy2
  refine ⟨?_, ?_, ?_⟩
  · simp only [Interval.is_bottom, PF.lt, decide_eq_false_iff_not, not_lt]
    exact le_trans hlow hup
  · rw [PF.le_fin_fin]
    push_cast
    exact hlow
  · rw [PF.le_fin_fin]
    push_cast
    exact hup

/-- C3 counterexample: abstract division is not a sound over-approximation
of JVM truncating integer division.  1 tdiv 2 = 0, but the sign-set quotient
of {+} by {+} is {+} (which excludes 0) and the interval quotient of [1,1]
by [2,2] is [1/2, 1/2] (exact bound quotients, also excluding 0). -/
theorem C3_arith_soundness_cex :
    SignSet.concretize (SignSet.abstract [1]) 1 = true ∧
    SignSet.concretize (SignSet.abstract [2]) 2 = true ∧
    Int.tdiv 1 2 = 0 ∧
    SignSet.concretize ((SignSet.abstract [1]).div (SignSet.abstract [2])) 0 = false ∧
    Interval.memZ (Interval.abstract [1]) 1 = true ∧
    Interval.memZ (Interval.abstract [2]) 2 = true ∧
    Interval.memZ ((Interval.abstract [1]).div (Interval.abstract [2])) 0 = false := by
  refine ⟨by decide, by decide, by decide, by decide, by decide, by decide, ?_⟩
  norm_num [Interval.abstract, Interval.div, Interval.memZ, Interval.mem,
    Interval.is_bottom, PF.pyminList, PF.pymaxList, PF.pymin, PF.pymax,
    PF.div, PF.le, PF.lt, PF.peq]

/-- C3 (amended): add and sub are sound over-approximations of concrete
integer addition and subtraction in both domains, and mul is sound for
SignSet always and for Interval on elements with finite bounds (with
infinite bounds Python evaluates 0 * inf to NaN inside Interval.mul, and the
resulting NaN-bounded interval concretises to nothing).  Division is
excluded: it is unsound under JVM truncating division in both domains (see
the counterexample). -/
theorem C3_arith_soundness_amended :
    (∀ (a b : SignSet) (x y : ℤ), a.concretize x = true → b.concretize y = true →
      (a.add b).concretize (x + y) = true ∧
      (a.sub b).concretize (x - y) = true ∧
      (a.mul b).concretize (x * y) = true) ∧
    (∀ (a b : Interval) (x y : ℤ), a.memZ x = true → b.memZ y = true →
      (a.add b).memZ (x + y) = true ∧
      (a.sub b).memZ (x - y) = true) ∧
    (∀ (a b : Interval) (x y : ℤ) (p1 q1 p2 q2 : ℚ),
      a.lo = .fin p1 → a.hi = .fin q1 → b.lo = .fin p2 → b.hi = .fin q2 →
      a.memZ x = true → b.memZ y = true →
      (a.mul b).memZ (x * y) = true) :=
  ⟨fun _ _ _ _ hx hy =>
    ⟨signset_add_sound hx hy, signset_sub_sound hx hy, signset_mul_sound hx hy⟩,
   fun _ _ _ _ hx hy => ⟨interval_add_sound hx hy, interval_sub_sound hx hy⟩,
   fun _ _ _ _ _ _ _ _ ha1 ha2 hb1 hb2 hx hy =>
    interval_mul_sound_finite ha1 ha2 hb1 hb2 hx hy⟩

/-- Witness for the amended C3 at concrete inputs: {+} and {-}, and the
intervals [2,3] and [4,5] at x = 2, y = 5. -/
theorem C3_arith_soundness_amended_witness :
    ((SignSet.abstract [2]).mul (SignSet.abstract [-3])).concretize (2 * -3) = true ∧
    ((Interval.abstract [2, 3]).add (Interval.abstract [4, 5])).memZ (2 + 5) = true ∧
    ((Interval.abstract [2, 3]).mul (Interval.abstract [4, 5])).memZ (2 * 5) = true := by
  refine ⟨?_, ?_, ?_⟩
  · exact (C3_arith_soundness_amended.1 (SignSet.abstract [2]) (SignSet.abstract [-3])
      2 (-3) (by decide) (by decide)).2.2
  · exact (C3_arith_soundness_amended.2.1 (Interval.abstract [2, 3])
      (Interval.abstract [4, 5]) 2 5 (by decide) (by decide)).1
  · exact C3_arith_soundness_amended.2.2 (Interval.abstract [2, 3])
      (Interval.abstract [4, 5]) 2 5 2 3 4 5 (by decide) (by decide) (by decide)
      (by decide) (by decide) (by decide)

/-- C9: for both abstract domains join is a least upper bound for the
domain order: a ⊑ a ⊔ b, b ⊑ a ⊔ b, and a ⊑ c together with b ⊑ c gives
(a ⊔ b) ⊑ c.  Interval elements range over the extended reals of the data
model, i.e. over NaN-free bounds. -/
theorem C9_join_is_lub :
    (∀ a b c : SignSet,
      SignSet.le a (a.or b) = true ∧ SignSet.le b (a.or b) = true ∧
      (SignSet.le a c = true → SignSet.le b c = true → SignSet.le (a.or b) c = true)) ∧
    (∀ a b c : Interval, a.NanFree → b.NanFree → c.NanFree →
      (Interval.le a (a.or b) = true ∧ Interval.le b (a.or b) = true ∧
      (Interval.le a c = true → Interval.le b c = true →
        Interval.le (a.or b) c = true))) := by
  constructor
  · intro a b c
    refine ⟨?_, ?_, ?_⟩
    · simp [SignSet.le, SignSet.or, Finset.subset_union_left]
    · simp [SignSet.le, SignSet.or, Finset.subset_union_right]
    · intro h1 h2
      simp only [SignSet.le, decide_eq_true_eq] at h1 h2 ⊢
      exact Finset.union_subset h1 h2
  · intro a b c ha hb _
    exact ⟨Interval.le_or_left ha hb, Interval.le_or_right ha hb,
      fun h1 h2 => Interval.or_le h1 h2⟩

/-- Witness for C9 at concrete elements: the sign sets {+} and {0}, and the
intervals [1,2], [4,5] with bound [0,9]. -/
theorem C9_join_is_lub_witness :
    SignSet.le ((SignSet.abstract [3]).or (SignSet.abstract [0]))
      (SignSet.abstract [3, 0]) = true ∧
    Interval.le ((Interval.abstract [1, 2]).or (Interval.abstract [4, 5]))
      (Interval.abstract [0, 9]) = true := by
  constructor
  · exact (C9_join_is_lub.1 (SignSet.abstract [3]) (SignSet.abstract [0])
      (SignSet.abstract [3, 0])).2.2 (by decide) (by decide)
  · exact ((C9_join_is_lub.2 (Interval.abstract [1, 2]) (Interval.abstract [4, 5])
      (Interval.abstract [0, 9]) (by decide) (by decide) (by decide)).2.2
      (by decide) (by decide))

/-!
Embedding of the abstract interpreter of abstract_interpreter.py, with
DOMAIN = Interval as in the analysis driver.  Python dicts are modelled as
association lists with in-place update (Python preserves insertion order);
dict equality is content equality.  Stacks (operand stacks and the frame
stack) have their top at the head of the list.  The method component of the
source PC is constant during one method analysis, so a pc is just the
opcode index.  Uncaught Python exceptions (missing keys, popping an empty
stack, attribute errors on values of the wrong shape) are modelled as a
none result.
-/

/-- Association-list lookup (Python d[k] / d.get(k)). -/
def alistGet {α β : Type} [DecidableEq α] : List (α × β) → α → Option β
  | [], _ => none
  | (k2, v2) :: rest, k => if k2 = k then some v2 else alistGet rest k

/-- Association-list update in place, appending a new key at the end as a
Python dict does. -/
def alistSet {α β : Type} [DecidableEq α] : List (α × β) → α → β → List (α × β)
  | [], k, v => [(k, v)]
  | (k2, v2) :: rest, k, v =>
    if k2 = k then (k2, v) :: rest else (k2, v2) :: alistSet rest k v

/-- Association-list key removal (Python del d[k]). -/
def alistDel {α β : Type} [DecidableEq α] : List (α × β) → α → List (α × β)
  | [], _ => []
  | (k2, v2) :: rest, k => if k2 = k then rest else (k2, v2) :: alistDel rest k

/-- Python k in d. -/
def alistHasKey {α β : Type} [DecidableEq α] (m : List (α × β)) (k : α) : Bool :=
  (alistGet m k).isSome

/-- Python dict equality: same keys, equal values. -/
def alistEqv {α β : Type} [DecidableEq α] [DecidableEq β]
    (m1 m2 : List (α × β)) : Bool :=
  m1.all (fun p => alistGet m2 p.1 == some p.2) &&
  m2.all (fun p => alistGet m1 p.1 == some p.2)

/-- Python str.startswith, tested on the character lists (the built-in
String.startsWith does not reduce inside the kernel). -/
def strStarts (s p : String) : Bool := p.data.isPrefixOf s.data

/-- Python set.add on a list kept duplicate-free. -/
def setAdd {α : Type} [DecidableEq α] (s : List α) (x : α) : List α :=
  if x ∈ s then s else s ++ [x]

/-- The binary operator tags of jvm.BinaryOpr. -/
inductive BinOp where
  | add | sub | mul | div | rem
deriving DecidableEq, Repr

/-- The opcode records of the analysed methods, restricted to the opcodes
the claims exercise.  Each record carries its offset field, which takes
part in equality exactly as in the frozen dataclasses of jpamb.jvm.opcode
(op_hit and dead_store compare opcodes by value, offset included). -/
inductive Opcode where
  | push (offset : Nat) (v : ℤ)
  | load (offset : Nat) (idx : Nat)
  | store (offset : Nat) (idx : Nat)
  | dup (offset : Nat)
  | binary (offset : Nat) (op : BinOp)
  | ret (offset : Nat) (typed : Bool)
  | get (offset : Nat)
  | ifz (offset : Nat) (cond : CmpOp) (target : Nat)
  | ifCmp (offset : Nat) (cond : CmpOp) (target : Nat)
  | goto (offset : Nat) (target : Nat)
  | newObj (offset : Nat) (isAssertionError : Bool)
  | arrayLoad (offset : Nat)
deriving DecidableEq, Repr

/-- FloatCmpResult of the interpreter (possible_rels canonically ordered as
produced by compare_floating). -/
structure FloatCmpResult where
  left_name : String
  right_name : String
  possible_rels : List Int
  onnan : Int
deriving DecidableEq, Repr

/-- A constraint-store value: an interval, a float-compare token, or the
[address, size-name] pair that new-array stores under the array name. -/
inductive CVal where
  | iv (v : Interval)
  | fc (f : FloatCmpResult)
  | arr (addr : Nat) (sizeName : String)
deriving DecidableEq, Repr

/-- A stack entry: normally a value name; the get and array-load opcodes
push raw values instead of names. -/
inductive StackEntry where
  | nm (s : String)
  | av (v : CVal)
deriving DecidableEq, Repr

/-- PerVarFrame: locals (index to name), operand stack (top at the head),
program counter. -/
structure Frame where
  locals : List (Nat × String)
  stack : List StackEntry
  pc : Nat
deriving DecidableEq, Repr

/-- AState: heap (address to name), constraint store (name to value), and
the frame stack (top at the head). -/
structure AState where
  heap : List (Nat × String)
  constraints : List (String × CVal)
  frames : List Frame
deriving DecidableEq, Repr

/-- The module-level op_hit / dead_store / dead_arg accumulators (dead_arg
keys only; its values, the parameter types, are never read). -/
structure Globals where
  opHit : List Opcode
  deadStore : List (Nat × Opcode)
  deadArg : List Nat
deriving DecidableEq, Repr

/-- One outcome of the transfer function: a successor state or a terminal
tag string. -/
inductive Outcome where
  | st (s : AState)
  | term (t : String)
deriving DecidableEq, Repr

/-- Python str(index) when building an array element name; the analysis only
stores integer indices (for a non-integer rational we render the Lean
notation, a divergence in a corner no analysed program reaches). -/
def renderPF : PF → String
  | .fin q => if q.den = 1 then toString q.num else toString q
  | .ninf => "-inf"
  | .pinf => "inf"
  | .nan => "nan"

/-- Rendering of Interval.concrete_value inside the f-string (Python
renders None when the value is not concrete). -/
def renderIndex : Option PF → String
  | some p => renderPF p
  | none => "None"

/-- The refine_for_rels helper of step.float_conditional: join of the
true-side constrain results over the surviving relations (set iteration
canonicalised to list order). -/
def refineForRels (val_l val_r : Interval) (rels : List Int) : Interval :=
  if rels.isEmpty then Interval.empty
  else rels.foldl (fun acc r =>
    let op_name : CmpOp := if r = -1 then .lt else if r = 0 then .eq else .gt
    acc.or (Interval.constrain val_l val_r op_name).1) Interval.empty

/-- The step.float_conditional helper: branch on a FloatCmpResult sitting in
the store, filtering the possible relations through the condition and
refining only the left operand name. -/
def floatConditionalStep (g : Globals) (state : AState) (restFrames : List Frame)
    (frame nf : Frame) (opr : Opcode) (cond : CmpOp) (target : Nat)
    (cmpRes : FloatCmpResult) : Globals × Option (List Outcome) :=
  match alistGet state.constraints cmpRes.left_name,
        alistGet state.constraints cmpRes.right_name with
  | some (.iv val_l), some (.iv val_r) =>
    let true_rels := cmpRes.possible_rels.filter (fun r => holds r cond)
    let false_rels := cmpRes.possible_rels.filter (fun r => !holds r cond)
    let trueTargets : List Outcome :=
      if true_rels.isEmpty then []
      else [.st { state with
        constraints := alistSet state.constraints cmpRes.left_name
          (.iv (refineForRels val_l val_r true_rels)),
        frames := { nf with pc := target } :: restFrames }]
    let falseTargets : List Outcome :=
      if false_rels.isEmpty then []
      else [.st { state with
        constraints := alistSet state.constraints cmpRes.left_name
          (.iv (refineForRels val_l val_r false_rels)),
        frames := { nf with pc := frame.pc + 1 } :: restFrames }]
    let g := if false_rels.isEmpty then { g with opHit := g.opHit.erase opr } else g
    (g, some (trueTargets ++ falseTargets))
  | _, _ => (g, none)

/-- The step.conditional helper: n2opt is none for an ifz (the right operand
is then abstract({0})).  Both sides refine only the left operand name n1;
when the false side is infeasible the opcode is removed from op_hit. -/
def conditionalStep (g : Globals) (state : AState) (restFrames : List Frame)
    (frame nf : Frame) (opr : Opcode) (cond : CmpOp) (target : Nat)
    (n1 : String) (n2opt : Option String) : Globals × Option (List Outcome) :=
  let v2opt : Option CVal :=
    match n2opt with
    | none => some (.iv (Interval.abstract [0]))
    | some n2 => alistGet state.constraints n2
  match v2opt with
  | none => (g, none)
  | some v2c =>
    match alistGet state.constraints n1 with
    | some (.fc cmpRes) =>
      floatConditionalStep g state restFrames frame nf opr cond target cmpRes
    | some (.iv v1) =>
      match v2c with
      | .iv v2 =>
        let res := Interval.compare v1 v2 cond
        let refined := Interval.constrain v1 v2 cond
        let trueTargets : List Outcome :=
          if res.contains true then
            [.st { state with
              constraints := alistSet state.constraints n1 (.iv refined.1),
              frames := { nf with pc := target } :: restFrames }]
          else []
        let falseTargets : List Outcome :=
          if res.contains false then
            [.st { state with
              constraints := alistSet state.constraints n1 (.iv refined.2),
              frames := { nf with pc := frame.pc + 1 } :: restFrames }]
          else []
        let g := if res.contains false then g else { g with opHit := g.opHit.erase opr }
        (g, some (trueTargets ++ falseTargets))
      | _ => (g, none)
    | _ => (g, none)

/-- The transfer function step (specialised to DOMAIN = Interval as in the
driver).  Returns the updated module-level accumulators and either the
successor outcomes or none for an uncaught exception.  An empty frame stack
returns no successors before op_hit is touched, as in the source. -/
def step (prog : List Opcode) (g : Globals) (state : AState) :
    Globals × Option (List Outcome) :=
  match state.frames with
  | [] => (g, some [])
  | frame :: restFrames =>
    match prog[frame.pc]? with
    | none => (g, none)
    | some opr =>
      let g := { g with opHit := setAdd g.opHit opr }
      match opr with
      | .push _ v =>
        let val_name := "stack_" ++ toString frame.stack.length
        let cons := alistSet state.constraints val_name (.iv (Interval.abstract [(v : ℚ)]))
        let nf := { frame with stack := .nm val_name :: frame.stack, pc := frame.pc + 1 }
        (g, some [.st { state with constraints := cons, frames := nf :: restFrames }])
      | .load _ i =>
        match alistGet frame.locals i with
        | none => (g, none)
        | some var_name =>
          let nf := { frame with stack := .nm var_name :: frame.stack, pc := frame.pc + 1 }
          let g := if strStarts var_name "local" && alistHasKey g.deadStore i then
              { g with deadStore := alistDel g.deadStore i } else g
          let g := if strStarts var_name "arg" && decide (i ∈ g.deadArg) then
              { g with deadArg := g.deadArg.erase i } else g
          (g, some [.st { state with frames := nf :: restFrames }])
      | .dup _ =>
        match frame.stack with
        | [] => (g, none)
        | top :: _ =>
          let nf := { frame with stack := top :: frame.stack, pc := frame.pc + 1 }
          (g, some [.st { state with frames := nf :: restFrames }])
      | .binary _ bop =>
        match frame.stack with
        | .nm n2 :: .nm n1 :: rest =>
          match alistGet state.constraints n1, alistGet state.constraints n2 with
          | some v1c, some v2c =>
            let resOpt : Option Interval :=
              match bop, v1c, v2c with
              | .add, .iv v1, .iv v2 => some (v1.add v2)
              | .sub, .iv v1, .iv v2 => some (v1.sub v2)
              | .mul, .iv v1, .iv v2 => some (v1.mul v2)
              | .div, .iv v1, .iv v2 => some (v1.div v2)
              | .rem, _, _ => some Interval.top
              | _, _, _ => none
            match resOpt with
            | none => (g, none)
            | some res =>
              let res_name := "stack_" ++ toString frame.stack.length
              let cons := alistSet state.constraints res_name (.iv res)
              let nf := { frame with stack := .nm res_name :: rest, pc := frame.pc + 1 }
              (g, some [.st { state with constraints := cons, frames := nf :: restFrames }])
          | _, _ => (g, none)
        | _ => (g, none)
      | .ret _ typed =>
        if typed then
          match frame.stack with
          | [] => (g, none)
          | retv :: _ =>
            match restFrames with
            | [] => (g, some [.term "ok"])
            | caller :: rest2 =>
              let caller2 := { caller with stack := retv :: caller.stack, pc := caller.pc + 1 }
              (g, some [.st { state with frames := caller2 :: rest2 }])
        else
          match restFrames with
          | [] => (g, some [.term "ok"])
          | caller :: rest2 =>
            let caller2 := { caller with pc := caller.pc + 1 }
            (g, some [.st { state with frames := caller2 :: rest2 }])
      | .get _ =>
        let nf := { frame with
          stack := .av (.iv (Interval.abstract [0])) :: frame.stack, pc := frame.pc + 1 }
        (g, some [.st { state with frames := nf :: restFrames }])
      | .ifz _ cond target =>
        match frame.stack with
        | .nm var_name :: rest =>
          conditionalStep g state restFrames frame { frame with stack := rest }
            opr cond target var_name none
        | _ => (g, none)
      | .newObj _ isAssert =>
        if isAssert then (g, some [.term "assertion error"])
        else
          let nf := { frame with pc := frame.pc + 1 }
          (g, some [.st { state with frames := nf :: restFrames }])
      | .ifCmp _ cond target =>
        match frame.stack with
        | .nm n2 :: .nm n1 :: rest =>
          conditionalStep g state restFrames frame { frame with stack := rest }
            opr cond target n1 (some n2)
        | _ => (g, none)
      | .store _ i =>
        match frame.stack with
        | .nm v_name :: rest =>
          match alistGet state.constraints v_name with
          | none => (g, none)
          | some v =>
            let existing := alistGet frame.locals i
            let local_name := match existing with
              | some ln => ln
              | none => "local_" ++ toString i
            let locals2 := match existing with
              | some _ => frame.locals
              | none => alistSet frame.locals i local_name
            let cons := alistSet state.constraints local_name v
            let g := if strStarts local_name "arg" then g
              else { g with deadStore := alistSet g.deadStore i opr }
            let nf := { frame with locals := locals2, stack := rest, pc := frame.pc + 1 }
            (g, some [.st { state with constraints := cons, frames := nf :: restFrames }])
        | _ => (g, none)
      | .goto _ t =>
        let nf := { frame with pc := t }
        (g, some [.st { state with frames := nf :: restFrames }])
      | .arrayLoad _ =>
        -- the source pops index and array from the original frame AFTER
        -- copying it, so the successor keeps both below the pushed value
        match frame.stack with
        | .nm index_name :: .nm arr_name :: _ =>
          match alistGet state.constraints index_name,
                alistGet state.constraints arr_name with
          | some (.iv index), some (.arr addr _) =>
            match alistGet state.heap addr with
            | none => (g, none)
            | some arr =>
              let name := arr ++ "_" ++ renderIndex index.concrete_value
              match alistGet state.constraints name with
              | none => (g, none)
              | some val =>
                let nf := { frame with
                  stack := .av val :: frame.stack, pc := frame.pc + 1 }
                (g, some [.st { state with frames := nf :: restFrames }])
          | _, _ => (g, none)
        | _ => (g, none)

/-- The merge_constraints closure of AState.__ior__: v1 is self's binding
(falling back to other's), v2 is other's binding (falling back to self's),
joined; joining non-interval values raises. -/
def mergeConstraints (cSelf cOther : List (String × CVal)) (n1 n2 : String) :
    Option CVal :=
  let v1 := match alistGet cSelf n1 with
    | some v => some v
    | none => alistGet cOther n1
  let v2 := match alistGet cOther n2 with
    | some v => some v
    | none => alistGet cSelf n2
  match v1, v2 with
  | some (.iv a), some (.iv b) => some (.iv (a.or b))
  | _, _ => none

/-- The resolve_names closure of AState.__ior__: equal names merge in place;
different names mint location_count (counting existing keys with the
location as a text prefix). -/
def resolveNames (cSelf cOther : List (String × CVal)) (n1 n2 loc : String) :
    Option (List (String × CVal) × String) :=
  if n1 = n2 then
    match mergeConstraints cSelf cOther n1 n2 with
    | none => none
    | some v => some (alistSet cSelf n1 v, n1)
  else
    let count := (cSelf.filter (fun p => strStarts p.1 loc)).length
    let newName := loc ++ "_" ++ toString count
    match mergeConstraints cSelf cOther n1 n2 with
    | none => none
    | some v => some (alistSet cSelf newName v, newName)

/-- The merge_mapping closure of AState.__ior__ over one src dict, threading
the constraint store and the location (which the source permanently switches
to arg when it meets an arg-prefixed name). -/
def mergeMappingGo (cOther : List (String × CVal)) :
    List (String × CVal) → List (Nat × String) → String → List (Nat × String) →
    Option (List (String × CVal) × List (Nat × String))
  | cSelf, dst, _, [] => some (cSelf, dst)
  | cSelf, dst, loc, (k, nOther) :: rest =>
    let loc := if strStarts nOther "arg" then "arg" else loc
    match alistGet dst k with
    | some nDst =>
      match resolveNames cSelf cOther nDst nOther loc with
      | none => none
      | some (cSelf2, newName) =>
        mergeMappingGo cOther cSelf2 (alistSet dst k newName) loc rest
    | none =>
      let dst2 := alistSet dst k nOther
      match alistGet cSelf nOther, alistGet cOther nOther with
      | some _, some _ =>
        match mergeConstraints cSelf cOther nOther nOther with
        | none => none
        | some v => mergeMappingGo cOther (alistSet cSelf nOther v) dst2 loc rest
      | none, some v => mergeMappingGo cOther (alistSet cSelf nOther v) dst2 loc rest
      | _, none => mergeMappingGo cOther cSelf dst2 loc rest

/-- Stack merge of AState.__ior__: elementwise merge of the constraint
bindings under self's names (pairs given bottom-up, the Python zip order). -/
def mergeStacks (cOther : List (String × CVal)) :
    List (String × CVal) → List (StackEntry × StackEntry) →
    Option (List (String × CVal))
  | cSelf, [] => some cSelf
  | cSelf, (e1, e2) :: rest =>
    match e1, e2 with
    | .nm n1, .nm n2 =>
      match mergeConstraints cSelf cOther n1 n2 with
      | none => none
      | some v => mergeStacks cOther (alistSet cSelf n1 v) rest
    | _, _ => none

/-- Frame merge of AState.__ior__ (frame pairs given bottom-up): assert
equal pcs, merge locals, assert equal stack heights, merge stack bindings. -/
def mergeFrames (cOther : List (String × CVal)) :
    List (String × CVal) → List (Frame × Frame) →
    Option (List (String × CVal) × List Frame)
  | cSelf, [] => some (cSelf, [])
  | cSelf, (f1, f2) :: rest =>
    if f1.pc ≠ f2.pc then none
    else
      match mergeMappingGo cOther cSelf f1.locals "local" f2.locals with
      | none => none
      | some (cSelf2, locals2) =>
        if f1.stack.length ≠ f2.stack.length then none
        else
          match mergeStacks cOther cSelf2 (f1.stack.reverse.zip f2.stack.reverse) with
          | none => none
          | some cSelf3 =>
            match mergeFrames cOther cSelf3 rest with
            | none => none
            | some (cSelf4, fs) => some (cSelf4, { f1 with locals := locals2 } :: fs)

/-- AState.__ior__ (the pointwise join used by the state set): merge heap by
address, then frames bottom-up; none models the asserts and key errors. -/
def astateIor (self other : AState) : Option AState :=
  if self.frames.length ≠ other.frames.length then none
  else
    match mergeMappingGo other.constraints self.constraints self.heap "heap" other.heap with
    | none => none
    | some (c1, heap2) =>
      match mergeFrames other.constraints c1 (self.frames.reverse.zip other.frames.reverse) with
      | none => none
      | some (c2, framesBottomUp) =>
        some { heap := heap2, constraints := c2, frames := framesBottomUp.reverse }

/-- Python dataclass equality of AState: dicts by content, frames
elementwise (locals by content). -/
def astateEqv (s1 s2 : AState) : Bool :=
  alistEqv s1.heap s2.heap && alistEqv s1.constraints s2.constraints &&
  s1.frames.length == s2.frames.length &&
  (s1.frames.zip s2.frames).all (fun p =>
    alistEqv p.1.locals p.2.locals && p.1.stack == p.2.stack && p.1.pc == p.2.pc)

/-- StateSet: the per-pc joined states and the needs-work set (a list; the
order in which Python set.pop drains it is unspecified, and the analysed
scenarios never hold more than one pending pc). -/
structure StateSet where
  perInst : List (Nat × AState)
  needswork : List Nat
deriving DecidableEq, Repr

/-- StateSet.__ior__: a new pc installs a clone and enqueues; a known pc is
joined and re-enqueued only when the join grew the state. -/
def stateSetJoin (sts : StateSet) (astate : AState) : Option StateSet :=
  match astate.frames with
  | [] => none
  | f :: _ =>
    let pc := f.pc
    match alistGet sts.perInst pc with
    | none => some { perInst := alistSet sts.perInst pc astate,
                     needswork := setAdd sts.needswork pc }
    | some old =>
      match astateIor old astate with
      | none => none
      | some newState =>
        if astateEqv newState old then some sts
        else some { perInst := alistSet sts.perInst pc newState,
                    needswork := setAdd sts.needswork pc }

/-- The manystep drain: process every pending pc once, collecting outcomes
(step does not touch the needs-work set, so one pass is the whole drain). -/
def manystepGo (prog : List Opcode) (g : Globals) (perInst : List (Nat × AState)) :
    List Nat → List Outcome → Option (Globals × List Outcome)
  | [], acc => some (g, acc)
  | pc :: rest, acc =>
    match alistGet perInst pc with
    | none => none
    | some st1 =>
      match step prog g st1 with
      | (_, none) => none
      | (g2, some outs) => manystepGo prog g2 perInst rest (acc ++ outs)

/-- Fold of the outer loop body over the outcomes of one manystep round:
terminal strings accumulate into the final set, states join the state set. -/
def joinOutcomes : StateSet → List String → List Outcome →
    Option (StateSet × List String)
  | sts, finals, [] => some (sts, finals)
  | sts, finals, (.term t) :: rest => joinOutcomes sts (setAdd finals t) rest
  | sts, finals, (.st s) :: rest =>
    match stateSetJoin sts s with
    | none => none
    | some sts2 => joinOutcomes sts2 finals rest

/-- At most n rounds of the driver while-loop (each round drains the
needs-work set once and joins the produced outcomes). -/
def runRounds (prog : List Opcode) :
    Nat → StateSet → Globals → List String →
    Option (StateSet × Globals × List String)
  | 0, sts, g, finals => some (sts, g, finals)
  | n + 1, sts, g, finals =>
    if sts.needswork.isEmpty then some (sts, g, finals)
    else
      match manystepGo prog g sts.perInst sts.needswork [] with
      | none => none
      | some (g2, outs) =>
        match joinOutcomes { sts with needswork := [] } finals outs with
        | none => none
        | some (sts2, finals2) => runRounds prog n sts2 g2 finals2

/-- initialstate_from_method: one frame at pc 0, one arg_i name per
parameter bound to top, dead_arg seeded with every parameter index. -/
def initialStateSet (paramCount : Nat) : StateSet × Globals :=
  let idxs := List.range paramCount
  let constraints := idxs.map (fun i => ("arg_" ++ toString i, CVal.iv Interval.top))
  let locals := idxs.map (fun i => (i, "arg_" ++ toString i))
  let frame : Frame := { locals := locals, stack := [], pc := 0 }
  let st : AState := { heap := [], constraints := constraints, frames := [frame] }
  ({ perInst := [(0, st)], needswork := [0] },
   { opHit := [], deadStore := [], deadArg := idxs })

/-- The per-method artifacts of static_bytecode_analysis: the unreachable
offsets (opcodes not hit, extended by the recorded dead stores), the dead
argument indices, and the accumulated terminals. -/
structure AnalysisResult where
  unreachable : List Nat
  deadArgs : List Nat
  terminals : List String
deriving DecidableEq, Repr

/-- One method analysis of static_bytecode_analysis: run the unbounded
while-loop (witnessed at the given fuel; none when the fuel does not reach
the fixed point) and collect the artifacts. -/
def static_bytecode_analysis (prog : List Opcode) (paramCount fuel : Nat) :
    Option AnalysisResult :=
  let (sts, g) := initialStateSet paramCount
  match runRounds prog fuel sts g [] with
  | none => none
  | some (sts2, g2, finals) =>
    if sts2.needswork.isEmpty then
      let notHit := (prog.enum.filter (fun p => !(g2.opHit.contains p.2))).map (fun p => p.1)
      let deadStoreOps :=
        (prog.enum.filter (fun p => (g2.deadStore.map (fun q => q.2)).contains p.2)).map
          (fun p => p.1)
      some { unreachable := notHit ++ deadStoreOps, deadArgs := g2.deadArg,
             terminals := finals }
    else none

/-- The guaranteed-divide-by-zero scenario of the spec: push 1; push 0;
idiv; ireturn, with no parameters. -/
def progDivZero : List Opcode :=
  [.push 0 1, .push 1 0, .binary 2 .div, .ret 3 true]

/-- The dead-store scenario of the spec: push 5; store 1; push 7; store 1;
load 1; ireturn, with one int parameter at index 0. -/
def progDeadStore : List Opcode :=
  [.push 0 5, .store 1 1, .push 2 7, .store 3 1, .load 4 1, .ret 5 true]

/-- C1 counterexample: on the guaranteed-divide-by-zero scenario the
analysis emits no divide-by-zero terminal at all: the fixed point reports
terminals {ok} (not {divide by zero}) and no unreachable offsets (the
ireturn at offset 3 is reached), contradicting the claimed behaviour. -/
theorem C1_div_zero_cex :
    static_bytecode_analysis progDivZero 0 10 =
      some { unreachable := [], deadArgs := [], terminals := ["ok"] } ∧
    (["ok"] : List String) ≠ ["divide by zero"] ∧ (3 : Nat) ∉ ([] : List Nat) := by
  refine ⟨by decide, by decide, by decide⟩

/-- C1 (amended): the binary div transfer never emits a divide-by-zero
terminal: for interval operands it emits exactly one continuing state whose
result name is bound to Interval.div of the operands (bottom when the
divisor is exactly [0,0], top when the divisor properly contains 0), and on
the scenario push 1; push 0; idiv; ireturn the ireturn at offset 3 is
reached and the terminals are exactly {ok}. -/
theorem C1_div_transfer_amended :
    (∀ (prog : List Opcode) (g : Globals) (heap : List (Nat × String))
      (cons : List (String × CVal)) (locals : List (Nat × String))
      (stk : List StackEntry) (restFrames : List Frame) (pc off : Nat)
      (n1 n2 : String) (v1 v2 : Interval),
      prog[pc]? = some (.binary off .div) →
      alistGet cons n1 = some (.iv v1) →
      alistGet cons n2 = some (.iv v2) →
      step prog g { heap := heap, constraints := cons,
                    frames := { locals := locals, stack := .nm n2 :: .nm n1 :: stk,
                                pc := pc } :: restFrames } =
      ({ g with opHit := setAdd g.opHit (.binary off .div) },
       some [.st { heap := heap,
                   constraints := alistSet cons ("stack_" ++ toString (stk.length + 2))
                     (.iv (v1.div v2)),
                   frames := { locals := locals,
                               stack := .nm ("stack_" ++ toString (stk.length + 2)) :: stk,
                               pc := pc + 1 } :: restFrames }])) ∧
    static_bytecode_analysis progDivZero 0 10 =
      some { unreachable := [], deadArgs := [], terminals := ["ok"] } := by
  constructor
  · intro prog g heap cons locals stk restFrames pc off n1 n2 v1 v2 hop h1 h2
    simp [step, hop, h1, h2]
  · decide

/-- Witness for the amended C1: the idiv step of the scenario itself, with
divisor exactly [0,0], emits one continuing state binding stack_2 to the
bottom interval. -/
theorem C1_div_transfer_amended_witness :
    step progDivZero { opHit := [], deadStore := [], deadArg := [] }
      { heap := [],
        constraints := [("stack_0", .iv (Interval.abstract [1])),
                        ("stack_1", .iv (Interval.abstract [0]))],
        frames := [{ locals := [], stack := [.nm "stack_1", .nm "stack_0"], pc := 2 }] } =
    ({ opHit := [.binary 2 .div], deadStore := [], deadArg := [] },
     some [.st { heap := [],
                 constraints := [("stack_0", .iv (Interval.abstract [1])),
                                 ("stack_1", .iv (Interval.abstract [0])),
                                 ("stack_2",
                                  .iv ((Interval.abstract [1]).div (Interval.abstract [0])))],
                 frames := [{ locals := [], stack := [.nm "stack_2"], pc := 3 }] }]) := by
  have h := C1_div_transfer_amended.1 progDivZero
    { opHit := [], deadStore := [], deadArg := [] } []
    [("stack_0", .iv (Interval.abstract [1])), ("stack_1", .iv (Interval.abstract [0]))]
    [] [] [] 2 2 "stack_0" "stack_1" (Interval.abstract [1]) (Interval.abstract [0])
    (by decide) (by decide) (by decide)
  exact h.trans (by decide)

/-- C6 counterexample: on the dead-store scenario the analysis reports an
empty set of dead offsets (not {0, 1}): the second store overwrites the
dead-store entry for local 1 and the following load withdraws it. -/
theorem C6_dead_store_cex :
    (static_bytecode_analysis progDeadStore 1 10).map
      (fun r => (r.unreachable, r.terminals)) = some ([], ["ok"]) ∧
    ([] : List Nat) ≠ [0, 1] := by
  refine ⟨by decide, by decide⟩

/-- C6 (amended): the dead-store scenario reports no dead offsets at all
(dead_store maps local 1 first to the store at offset 1, then overwrites it
with the store at offset 3, and the load at offset 4 deletes the entry), the
parameter is reported dead, and the terminals are exactly {ok}. -/
theorem C6_dead_store_amended :
    static_bytecode_analysis progDeadStore 1 10 =
      some { unreachable := [], deadArgs := [0], terminals := ["ok"] } := by
  decide

/-- C10: for a binary rem opcode with both operand names bound in the store,
the transfer function binds the pushed result name to the top element of the
interval domain, whatever the operand values (including non-interval store
values, which rem never inspects). -/
theorem C10_rem_result_is_top (prog : List Opcode) (g : Globals)
    (heap : List (Nat × String)) (cons : List (String × CVal))
    (locals : List (Nat × String)) (stk : List StackEntry)
    (restFrames : List Frame) (pc off : Nat) (n1 n2 : String) (v1 v2 : CVal)
    (hop : prog[pc]? = some (.binary off .rem))
    (h1 : alistGet cons n1 = some v1) (h2 : alistGet cons n2 = some v2) :
    step prog g { heap := heap, constraints := cons,
                  frames := { locals := locals, stack := .nm n2 :: .nm n1 :: stk,
                              pc := pc } :: restFrames } =
    ({ g with opHit := setAdd g.opHit (.binary off .rem) },
     some [.st { heap := heap,
                 constraints := alistSet cons ("stack_" ++ toString (stk.length + 2))
                   (.iv Interval.top),
                 frames := { locals := locals,
                             stack := .nm ("stack_" ++ toString (stk.length + 2)) :: stk,
                             pc := pc + 1 } :: restFrames }]) := by
  simp [step, hop, h1, h2]

/-- Witness for C10 at a concrete irem state: 7 rem 3 still produces top. -/
theorem C10_rem_result_is_top_witness :
    step [.binary 0 .rem] { opHit := [], deadStore := [], deadArg := [] }
      { heap := [],
        constraints := [("a", .iv (Interval.abstract [7])),
                        ("b", .iv (Interval.abstract [3]))],
        frames := [{ locals := [], stack := [.nm "b", .nm "a"], pc := 0 }] } =
    ({ opHit := [.binary 0 .rem], deadStore := [], deadArg := [] },
     some [.st { heap := [],
                 constraints := [("a", .iv (Interval.abstract [7])),
                                 ("b", .iv (Interval.abstract [3])),
                                 ("stack_2", .iv Interval.top)],
                 frames := [{ locals := [], stack := [.nm "stack_2"], pc := 1 }] }]) := by
  have h := C10_rem_result_is_top [.binary 0 .rem]
    { opHit := [], deadStore := [], deadArg := [] } []
    [("a", .iv (Interval.abstract [7])), ("b", .iv (Interval.abstract [3]))]
    [] [] [] 0 0 "a" "b" (.iv (Interval.abstract [7])) (.iv (Interval.abstract [3]))
    (by decide) (by decide) (by decide)
  exact h.trans (by decide)

theorem alistGet_set_self {α β : Type} [DecidableEq α] (m : List (α × β)) (k : α) (v : β) :
    alistGet (alistSet m k v) k = some v := by
  induction m with
  | nil => simp [alistGet, alistSet]
  | cons p rest ih =>
    obtain ⟨k2, v2⟩ := p
    by_cases h : k2 = k
    · simp [alistSet, alistGet, h]
    · simp [alistSet, alistGet, h, ih]

theorem alistGet_set_ne {α β : Type} [DecidableEq α] (m : List (α × β)) (k m2 : α)
    (v : β) (h : m2 ≠ k) : alistGet (alistSet m k v) m2 = alistGet m m2 := by
  induction m with
  | nil => simp [alistGet, alistSet, Ne.symm h]
  | cons p rest ih =>
    obtain ⟨k2, v2⟩ := p
    by_cases h2 : k2 = k
    · subst h2
      simp [alistSet, alistGet, Ne.symm h]
    · simp only [alistSet, if_neg h2, alistGet]
      by_cases h3 : k2 = m2 <;> simp [h3, ih]

theorem alistSet_len_of_hasKey {α β : Type} [DecidableEq α] (m : List (α × β))
    (k : α) (v : β) (h : alistHasKey m k = true) :
    (alistSet m k v).length = m.length := by
  induction m with
  | nil => simp [alistHasKey, alistGet] at h
  | cons p rest ih =>
    obtain ⟨k2, v2⟩ := p
    by_cases h2 : k2 = k
    · simp [alistSet, h2]
    · simp only [alistHasKey, alistGet, if_neg h2] at h
      simp [alistSet, if_neg h2, ih h]

theorem constrain_05_1_lt :
    Interval.constrain (Interval.abstract [0, 5]) (Interval.abstract [1]) CmpOp.lt
      = (Interval.abstract [0], Interval.abstract [1, 5]) := by
  norm_num [Interval.abstract, Interval.constrain, Interval.of, Interval.empty,
    PF.pyminList, PF.pymaxList, PF.pymin, PF.pymax, PF.lt, PF.le, PF.sub, PF.add,
    PF.neg, Interval.is_bottom]

/-- C4 counterexample: on if lt with left operand a bound to [0,5] and right
operand b bound to [1,1], both emitted successors keep b bound to [1,1],
while the two refined halves of constrain are [0,0] and [1,5]; so neither
side installs a refined constraint for the right operand name. -/
theorem C4_conditional_refines_cex :
    Interval.constrain (Interval.abstract [0, 5]) (Interval.abstract [1]) CmpOp.lt
      = (Interval.abstract [0], Interval.abstract [1, 5]) ∧
    ((step [.ifCmp 0 .lt 9] { opHit := [], deadStore := [], deadArg := [] }
      { heap := [],
        constraints := [("a", .iv (Interval.abstract [0, 5])),
                        ("b", .iv (Interval.abstract [1]))],
        frames := [{ locals := [], stack := [.nm "b", .nm "a"], pc := 0 }] }).2.map
      (fun outs => outs.map (fun o => match o with
        | .st s => alistGet s.constraints "b"
        | .term _ => none))
      = some [some (.iv (Interval.abstract [1])), some (.iv (Interval.abstract [1]))]) ∧
    Interval.abstract [0] ≠ Interval.abstract [1] ∧
    Interval.abstract [1, 5] ≠ Interval.abstract [1] := by
  refine ⟨constrain_05_1_lt, by decide, by decide, by decide⟩

/-- C4 (amended): a two-operand conditional refines only the left operand
name n1: the true side installs the first constrain half for n1 at the jump
target, the false side installs the second half for n1 at the fall-through
pc, and every other name — the right operand n2 included — keeps its old
binding (alistSet only touches the given key). -/
theorem C4_conditional_refines_only_left :
    (∀ (prog : List Opcode) (g : Globals) (heap : List (Nat × String))
      (cons : List (String × CVal)) (locals : List (Nat × String))
      (stk : List StackEntry) (restFrames : List Frame) (pc off target : Nat)
      (cond : CmpOp) (n1 n2 : String) (v1 v2 : Interval),
      prog[pc]? = some (.ifCmp off cond target) →
      alistGet cons n1 = some (.iv v1) →
      alistGet cons n2 = some (.iv v2) →
      step prog g { heap := heap, constraints := cons,
                    frames := { locals := locals, stack := .nm n2 :: .nm n1 :: stk,
                                pc := pc } :: restFrames } =
      ((if (Interval.compare v1 v2 cond).contains false then
          { g with opHit := setAdd g.opHit (.ifCmp off cond target) }
        else
          { g with opHit :=
              (setAdd g.opHit (.ifCmp off cond target)).erase (.ifCmp off cond target) }),
       some ((if (Interval.compare v1 v2 cond).contains true then
           [Outcome.st
             { heap := heap,
               constraints := alistSet cons n1 (.iv (Interval.constrain v1 v2 cond).1),
               frames := { locals := locals, stack := stk,
                           pc := target } :: restFrames }]
         else []) ++
         (if (Interval.compare v1 v2 cond).contains false then
           [Outcome.st
             { heap := heap,
               constraints := alistSet cons n1 (.iv (Interval.constrain v1 v2 cond).2),
               frames := { locals := locals, stack := stk,
                           pc := pc + 1 } :: restFrames }]
         else [])))) ∧
    (∀ (cons : List (String × CVal)) (n1 m : String) (v : CVal), m ≠ n1 →
      alistGet (alistSet cons n1 v) m = alistGet cons m) := by
  constructor
  · intro prog g heap cons locals stk restFrames pc off target cond n1 n2 v1 v2 hop h1 h2
    simp [step, conditionalStep, hop, h1, h2]
  · intro cons n1 m v h
    exact alistGet_set_ne cons n1 m v h

/-- Witness for the amended C4 at the counterexample state: both sides
emitted, only a rebound. -/
theorem C4_conditional_refines_only_left_witness :
    step [.ifCmp 0 .lt 9] { opHit := [], deadStore := [], deadArg := [] }
      { heap := [],
        constraints := [("a", .iv (Interval.abstract [0, 5])),
                        ("b", .iv (Interval.abstract [1]))],
        frames := [{ locals := [], stack := [.nm "b", .nm "a"], pc := 0 }] } =
    ({ opHit := [.ifCmp 0 .lt 9], deadStore := [], deadArg := [] },
     some [.st { heap := [],
                 constraints := [("a", .iv (Interval.abstract [0])),
                                 ("b", .iv (Interval.abstract [1]))],
                 frames := [{ locals := [], stack := [], pc := 9 }] },
           .st { heap := [],
                 constraints := [("a", .iv (Interval.abstract [1, 5])),
                                 ("b", .iv (Interval.abstract [1]))],
                 frames := [{ locals := [], stack := [], pc := 1 }] }]) := by
  have h := C4_conditional_refines_only_left.1 [.ifCmp 0 .lt 9]
    { opHit := [], deadStore := [], deadArg := [] } []
    [("a", .iv (Interval.abstract [0, 5])), ("b", .iv (Interval.abstract [1]))]
    [] [] [] 0 0 9 CmpOp.lt "a" "b" (Interval.abstract [0, 5]) (Interval.abstract [1])
    (by decide) (by decide) (by decide)
  have hcmp : Interval.compare (Interval.abstract [0, 5]) (Interval.abstract [1])
      CmpOp.lt = [true, false] := by decide
  rw [hcmp, constrain_05_1_lt] at h
  exact h.trans (by decide)

theorem mem_setAdd_self {α : Type} [DecidableEq α] (l : List α) (x : α) :
    x ∈ setAdd l x := by
  unfold setAdd
  split_ifs with h
  · exact h
  · simp

theorem setAdd_erase_not_mem {α : Type} [DecidableEq α] (l : List α) (x : α)
    (h : x ∉ l) : x ∉ (setAdd l x).erase x := by
  unfold setAdd
  rw [if_neg h]
  intro hmem
  have hsub := List.erase_subset x (l ++ [x])
  have : (l ++ [x]).erase x = l ++ [x].erase x := by
    rw [List.erase_append_right]
    simpa using h
  rw [this] at hmem
  simp at hmem
  exact h hmem

/-- C5 counterexample: on if gt with left operand [5,5] and right operand
[0,0] only the true side is feasible (compare yields [true]); one successor
is emitted, yet the opcode is removed from op_hit, so a branch with exactly
one infeasible side is NOT counted as hit. -/
theorem C5_ophit_cex :
    Interval.compare (Interval.abstract [5]) (Interval.abstract [0]) CmpOp.gt
      = [true] ∧
    (step [.ifCmp 0 .gt 5] { opHit := [], deadStore := [], deadArg := [] }
      { heap := [],
        constraints := [("a", .iv (Interval.abstract [5])),
                        ("b", .iv (Interval.abstract [0]))],
        frames := [{ locals := [], stack := [.nm "b", .nm "a"], pc := 0 }] }).1.opHit
      = [] ∧
    ((step [.ifCmp 0 .gt 5] { opHit := [], deadStore := [], deadArg := [] }
      { heap := [],
        constraints := [("a", .iv (Interval.abstract [5])),
                        ("b", .iv (Interval.abstract [0]))],
        frames := [{ locals := [], stack := [.nm "b", .nm "a"], pc := 0 }] }).2.map
      List.length) = some 1 := by
  refine ⟨by decide, by decide, by decide⟩

/-- C5 (amended): after a two-operand conditional the opcode is counted in
op_hit if and only if the FALSE side is feasible: when the false side is
infeasible it is removed from op_hit even though the (feasible) true side
was emitted, and when no side is feasible it is likewise removed.  The same
holds for a float-compare conditional with the false side read off the
possible relations. -/
theorem C5_ophit_iff_false_side :
    (∀ (prog : List Opcode) (g : Globals) (heap : List (Nat × String))
      (cons : List (String × CVal)) (locals : List (Nat × String))
      (stk : List StackEntry) (restFrames : List Frame) (pc off target : Nat)
      (cond : CmpOp) (n1 n2 : String) (v1 v2 : Interval),
      prog[pc]? = some (.ifCmp off cond target) →
      (Opcode.ifCmp off cond target) ∉ g.opHit →
      alistGet cons n1 = some (.iv v1) →
      alistGet cons n2 = some (.iv v2) →
      ((Opcode.ifCmp off cond target) ∈
        (step prog g
          { heap := heap, constraints := cons,
            frames := { locals := locals, stack := .nm n2 :: .nm n1 :: stk,
                        pc := pc } :: restFrames }).1.opHit ↔
        (Interval.compare v1 v2 cond).contains false = true)) ∧
    (∀ (prog : List Opcode) (g : Globals) (heap : List (Nat × String))
      (cons : List (String × CVal)) (locals : List (Nat × String))
      (stk : List StackEntry) (restFrames : List Frame) (pc off target : Nat)
      (cond : CmpOp) (n1 n2 : String) (cmpRes : FloatCmpResult) (w : CVal)
      (vl vr : Interval),
      prog[pc]? = some (.ifCmp off cond target) →
      (Opcode.ifCmp off cond target) ∉ g.opHit →
      alistGet cons n1 = some (.fc cmpRes) →
      alistGet cons n2 = some w →
      alistGet cons cmpRes.left_name = some (.iv vl) →
      alistGet cons cmpRes.right_name = some (.iv vr) →
      ((Opcode.ifCmp off cond target) ∈
        (step prog g
          { heap := heap, constraints := cons,
            frames := { locals := locals, stack := .nm n2 :: .nm n1 :: stk,
                        pc := pc } :: restFrames }).1.opHit ↔
        (cmpRes.possible_rels.filter (fun r => !holds r cond)).isEmpty = false)) := by
  constructor
  · intro prog g heap cons locals stk restFrames pc off target cond n1 n2 v1 v2
      hop hg h1 h2
    by_cases hb : (Interval.compare v1 v2 cond).contains false = true
    · simp only [step, hop, conditionalStep, h1, h2, hb, if_true, iff_true]
      exact mem_setAdd_self g.opHit _
    · have hb2 : (Interval.compare v1 v2 cond).contains false = false := by
        revert hb
        cases (Interval.compare v1 v2 cond).contains false <;> simp
      simp only [step, hop, conditionalStep, h1, h2, hb2, Bool.false_eq_true,
        if_false, iff_false]
      exact setAdd_erase_not_mem g.opHit _ hg
  · intro prog g heap cons locals stk restFrames pc off target cond n1 n2 cmpRes w
      vl vr hop hg h1 h2 hl hr
    by_cases hb : (cmpRes.possible_rels.filter (fun r => !holds r cond)).isEmpty = true
    · simp only [step, hop, conditionalStep, h1, h2, floatConditionalStep, hl, hr,
        hb, if_true, Bool.true_eq_false, iff_false]
      exact setAdd_erase_not_mem g.opHit _ hg
    · have hb2 : (cmpRes.possible_rels.filter (fun r => !holds r cond)).isEmpty = false := by
        revert hb
        cases (cmpRes.possible_rels.filter (fun r => !holds r cond)).isEmpty <;> simp
      simp only [step, hop, conditionalStep, h1, h2, floatConditionalStep, hl, hr,
        hb2, Bool.false_eq_true, if_false, iff_true]
      exact mem_setAdd_self g.opHit _

/-- Witness for the amended C5 at the counterexample state: the opcode is
not in op_hit because compare yields [true] (false side infeasible). -/
theorem C5_ophit_iff_false_side_witness :
    (Opcode.ifCmp 0 .gt 5) ∉ (step [.ifCmp 0 .gt 5]
      { opHit := [], deadStore := [], deadArg := [] }
      { heap := [],
        constraints := [("a", .iv (Interval.abstract [5])),
                        ("b", .iv (Interval.abstract [0]))],
        frames := [{ locals := [], stack := [.nm "b", .nm "a"], pc := 0 }] }).1.opHit := by
  have h := C5_ophit_iff_false_side.1 [.ifCmp 0 .gt 5]
    { opHit := [], deadStore := [], deadArg := [] } []
    [("a", .iv (Interval.abstract [5])), ("b", .iv (Interval.abstract [0]))]
    [] [] [] 0 0 5 CmpOp.gt "a" "b" (Interval.abstract [5]) (Interval.abstract [0])
    (by decide) (by decide) (by decide) (by decide)
  intro hmem
  exact absurd (h.mp hmem) (by decide)

/-- Formalisation of the spec invariant for one stack entry: the entry is a
value name that has a binding in the store (a raw value is not such a
name). -/
def stackEntryOk (cons : List (String × CVal)) : StackEntry → Bool
  | .nm n => alistHasKey cons n
  | .av _ => false

/-- Formalisation of the spec invariant: every name referenced by any
frame's locals or stack, or by the heap, appears in the store. -/
def stateNamesOk (s : AState) : Bool :=
  s.frames.all (fun f => f.stack.all (stackEntryOk s.constraints) &&
    f.locals.all (fun p => alistHasKey s.constraints p.2)) &&
  s.heap.all (fun p => alistHasKey s.constraints p.2)

/-- C7 counterexample: a state satisfying the store-binding invariant
stops satisfying it after one get-static step, because the successor's
stack top is the raw abstract value abstract({0}), not a store-bound
name. -/
theorem C7_names_invariant_cex :
    stateNamesOk { heap := [], constraints := [("x", .iv (Interval.abstract [1]))],
                   frames := [{ locals := [], stack := [.nm "x"], pc := 0 }] } = true ∧
    ((step [.get 0] { opHit := [], deadStore := [], deadArg := [] }
      { heap := [], constraints := [("x", .iv (Interval.abstract [1]))],
        frames := [{ locals := [], stack := [.nm "x"], pc := 0 }] }).2.map
      (fun outs => outs.map (fun o => match o with
        | .st s => stateNamesOk s
        | .term _ => true))) = some [false] := by
  refine ⟨by decide, by decide⟩

/-- C7 (amended): the get-static successor pushes the raw abstract value
abstract({0}) itself onto the operand stack — a raw value is never a name —
so the store-binding invariant fails right after a get step, and the
array-load successor likewise pushes the looked-up raw value (shown on a
concrete array state); a constant push, by contrast, pushes a name that is
bound in the successor store. -/
theorem C7_names_invariant_amended :
    (∀ (prog : List Opcode) (g : Globals) (heap : List (Nat × String))
      (cons : List (String × CVal)) (frame : Frame) (restFrames : List Frame)
      (off : Nat),
      prog[frame.pc]? = some (.get off) →
      step prog g { heap := heap, constraints := cons, frames := frame :: restFrames } =
      ({ g with opHit := setAdd g.opHit (.get off) },
       some [.st { heap := heap, constraints := cons,
                   frames := { frame with
                               stack := .av (.iv (Interval.abstract [0])) :: frame.stack,
                               pc := frame.pc + 1 } :: restFrames }])) ∧
    (∀ (v : CVal) (n : String), StackEntry.av v ≠ StackEntry.nm n) ∧
    (∀ (prog : List Opcode) (g : Globals) (heap : List (Nat × String))
      (cons : List (String × CVal)) (locals : List (Nat × String))
      (stk : List StackEntry) (restFrames : List Frame) (pc off : Nat) (v : ℤ),
      prog[pc]? = some (.push off v) →
      step prog g { heap := heap, constraints := cons,
                    frames := { locals := locals, stack := stk,
                                pc := pc } :: restFrames } =
      ({ g with opHit := setAdd g.opHit (.push off v) },
       some [.st { heap := heap,
                   constraints := alistSet cons ("stack_" ++ toString stk.length)
                     (.iv (Interval.abstract [(v : ℚ)])),
                   frames := { locals := locals,
                               stack := .nm ("stack_" ++ toString stk.length) :: stk,
                               pc := pc + 1 } :: restFrames }])) ∧
    (∀ (cons : List (String × CVal)) (k : String) (vv : CVal),
      alistGet (alistSet cons k vv) k = some vv) ∧
    step [.arrayLoad 0] { opHit := [], deadStore := [], deadArg := [] }
      { heap := [(0, "arr_0")],
        constraints := [("arr_0", .arr 0 "sz"), ("sz", .iv (Interval.abstract [2])),
                        ("idx", .iv (Interval.abstract [0])),
                        ("arr_0_0", .iv (Interval.abstract [7]))],
        frames := [{ locals := [], stack := [.nm "idx", .nm "arr_0"], pc := 0 }] } =
    ({ opHit := [.arrayLoad 0], deadStore := [], deadArg := [] },
     some [.st { heap := [(0, "arr_0")],
                 constraints := [("arr_0", .arr 0 "sz"), ("sz", .iv (Interval.abstract [2])),
                                 ("idx", .iv (Interval.abstract [0])),
                                 ("arr_0_0", .iv (Interval.abstract [7]))],
                 frames := [{ locals := [],
                              stack := [.av (.iv (Interval.abstract [7])),
                                        .nm "idx", .nm "arr_0"],
                              pc := 1 }] }]) := by
  refine ⟨?_, ?_, ?_, ?_, by decide⟩
  · intro prog g heap cons frame restFrames off hop
    simp [step, hop]
  · intro v n
    simp
  · intro prog g heap cons locals stk restFrames pc off v hop
    simp [step, hop]
  · intro cons k vv
    exact alistGet_set_self cons k vv

/-- Witness for the amended C7: one concrete get step. -/
theorem C7_names_invariant_amended_witness :
    step [.get 0] { opHit := [], deadStore := [], deadArg := [] }
      { heap := [], constraints := [("x", .iv (Interval.abstract [1]))],
        frames := [{ locals := [], stack := [.nm "x"], pc := 0 }] } =
    ({ opHit := [.get 0], deadStore := [], deadArg := [] },
     some [.st { heap := [], constraints := [("x", .iv (Interval.abstract [1]))],
                 frames := [{ locals := [],
                              stack := [.av (.iv (Interval.abstract [0])), .nm "x"],
                              pc := 1 }] }]) := by
  have h := C7_names_invariant_amended.1 [.get 0]
    { opHit := [], deadStore := [], deadArg := [] } []
    [("x", .iv (Interval.abstract [1]))]
    { locals := [], stack := [.nm "x"], pc := 0 } [] 0 (by decide)
  exact h.trans (by decide)

/-- C8 counterexample: in the dead-store scenario the state reaching the
push at offset 2 already binds stack_0 (to [5,5]) while its operand stack
is empty, so the push mints the name stack_0 again — not distinct from the
existing names — and rebinds it to [7,7] in the state reaching offset 3. -/
theorem C8_fresh_names_cex :
    ((runRounds progDeadStore 2 (initialStateSet 1).1 (initialStateSet 1).2 []).bind
      (fun r => alistGet r.1.perInst 2)).map
      (fun s => (alistHasKey s.constraints "stack_0",
                 s.frames.map (fun f => f.stack.length),
                 alistGet s.constraints "stack_0"))
      = some (true, [0], some (.iv (Interval.abstract [5]))) ∧
    ((runRounds progDeadStore 3 (initialStateSet 1).1 (initialStateSet 1).2 []).bind
      (fun r => alistGet r.1.perInst 3)).map
      (fun s => alistGet s.constraints "stack_0")
      = some (some (.iv (Interval.abstract [7]))) := by
  refine ⟨by decide, by decide⟩

/-- C8 (amended): minted names are positional, not counter-fresh: a constant
push mints stack_h where h is the current operand stack height and installs
the binding with a plain dict update, so when that name is already a store
key the existing name is rebound in place (the store does not grow), as
happens at offset 2 of the dead-store scenario. -/
theorem C8_fresh_names_amended :
    (∀ (prog : List Opcode) (g : Globals) (heap : List (Nat × String))
      (cons : List (String × CVal)) (locals : List (Nat × String))
      (stk : List StackEntry) (restFrames : List Frame) (pc off : Nat) (v : ℤ),
      prog[pc]? = some (.push off v) →
      step prog g { heap := heap, constraints := cons,
                    frames := { locals := locals, stack := stk,
                                pc := pc } :: restFrames } =
      ({ g with opHit := setAdd g.opHit (.push off v) },
       some [.st { heap := heap,
                   constraints := alistSet cons ("stack_" ++ toString stk.length)
                     (.iv (Interval.abstract [(v : ℚ)])),
                   frames := { locals := locals,
                               stack := .nm ("stack_" ++ toString stk.length) :: stk,
                               pc := pc + 1 } :: restFrames }])) ∧
    (∀ (cons : List (String × CVal)) (k : String) (vv : CVal),
      alistHasKey cons k = true → (alistSet cons k vv).length = cons.length) ∧
    ((runRounds progDeadStore 3 (initialStateSet 1).1 (initialStateSet 1).2 []).bind
      (fun r => alistGet r.1.perInst 3)).map
      (fun s => (alistGet s.constraints "stack_0", s.constraints.length))
      = some (some (.iv (Interval.abstract [7])), 3) := by
  refine ⟨?_, ?_, by decide⟩
  · intro prog g heap cons locals stk restFrames pc off v hop
    simp [step, hop]
  · intro cons k vv h
    exact alistSet_len_of_hasKey cons k vv h

/-- Witness for the amended C8: the push at offset 2 of the dead-store
scenario, executed on the joined state at that offset, re-mints stack_0. -/
theorem C8_fresh_names_amended_witness :
    step progDeadStore { opHit := [], deadStore := [], deadArg := [] }
      { heap := [],
        constraints := [("arg_0", .iv Interval.top),
                        ("stack_0", .iv (Interval.abstract [5])),
                        ("local_1", .iv (Interval.abstract [5]))],
        frames := [{ locals := [(0, "arg_0"), (1, "local_1")], stack := [], pc := 2 }] } =
    ({ opHit := [.push 2 7], deadStore := [], deadArg := [] },
     some [.st { heap := [],
                 constraints := [("arg_0", .iv Interval.top),
                                 ("stack_0", .iv (Interval.abstract [7])),
                                 ("local_1", .iv (Interval.abstract [5]))],
                 frames := [{ locals := [(0, "arg_0"), (1, "local_1")],
                              stack := [.nm "stack_0"], pc := 3 }] }]) := by
  have h := C8_fresh_names_amended.1 progDeadStore
    { opHit := [], deadStore := [], deadArg := [] } []
    [("arg_0", .iv Interval.top), ("stack_0", .iv (Interval.abstract [5])),
     ("local_1", .iv (Interval.abstract [5]))]
    [(0, "arg_0"), (1, "local_1")] [] [] 2 2 7 (by decide)
  exact h.trans (by decide)

end Debloater
